import Mathlib

/-!
# Verification of the kalshi-worldview claim-graph pipeline

Shallow embedding of the core pipeline of `server/app` (claim_graph.py,
graph.py, embeddings.py) and proofs of the specified properties.

Modelling conventions:
* Python floats are modelled as rationals (`ℚ`).  The float operation
  `x ** 0.5` has no rational counterpart, so the square root used inside
  `cosine_similarity` is an abstract parameter `sqrt : ℚ → ℚ`; every
  property proved below holds for an arbitrary `sqrt`.
* Fallible code is modelled in `Except String`; a raised Python exception
  is an `Except.error` carrying the message.
* External collaborators (derivative generator, embedder, verification
  agent, market search) are parameters: the embedder is a pure function
  `String → List ℚ` (it is memoized per distinct text within a build, so
  within one build it is observationally a function), the verification
  agent is `String → Except String VerificationResult`, and so on.
* The `asyncio` stages run under a cooperative single-threaded scheduler
  (at most one task progresses between awaits) and each per-node task
  touches only its own node, so the per-stage fan-out/fan-in is modelled
  as an in-order traversal of the node list.
* `uuid.uuid4()` node ids are modelled by a deterministic fresh-name
  supply `claimId : Nat → String` driven by a counter.
* Status and edge-type string literals are kept as `String`, exactly the
  literals the Python code assigns.
-/

namespace KalshiWorldview

/-! ## Data model (models.py) -/

structure ExaSource where
  title : String
  url : String
  snippet : String
deriving DecidableEq, Repr

structure VerificationResult where
  confidence : ℚ
  rationale : String
  exa_results : List ExaSource
deriving DecidableEq, Repr

structure KalshiMarket where
  id : String
  title : String
  url : String
  relevance : ℚ
deriving DecidableEq, Repr

structure ClaimSource where
  verification : Option VerificationResult := none
  kalshi_market : Option KalshiMarket := none
deriving DecidableEq, Repr

structure ClaimNode where
  id : String
  label : String
  status : String
  sources : List ClaimSource := []
  similarity : ℚ
  hop : Int
deriving DecidableEq, Repr

structure ClaimEdge where
  source : String
  target : String
  type : String
  weight : ℚ
deriving DecidableEq, Repr

/-- `Candidate` (models.py): an external market-search result. -/
structure Candidate where
  id : String
  type : String
  title : String
  description : Option String := none
  url : Option String := none
deriving DecidableEq, Repr

/-- `GraphNode` (models.py), used by the BFS variant in graph.py. -/
structure GraphNode where
  id : String
  label : String
  url : Option String
  type : String
  similarity : ℚ
  hop : Int
deriving DecidableEq, Repr

/-- `GraphEdge` (models.py), used by the BFS variant in graph.py. -/
structure GraphEdge where
  source : String
  target : String
  weight : ℚ
deriving DecidableEq, Repr

/-! ## Similarity utility (embeddings.py, `EmbeddingClient.cosine_similarity`)

The Python function runs one loop over `zip(a, b)` accumulating `dot`,
`na` and `nb`; the three folds below accumulate the same three sums. -/

def dotZip (a b : List ℚ) : ℚ :=
  (a.zip b).foldl (fun s p => s + p.1 * p.2) 0

def naZip (a b : List ℚ) : ℚ :=
  (a.zip b).foldl (fun s p => s + p.1 * p.1) 0

def nbZip (a b : List ℚ) : ℚ :=
  (a.zip b).foldl (fun s p => s + p.2 * p.2) 0

/-- `EmbeddingClient.cosine_similarity` (embeddings.py lines 25-39).
`raise ValueError(...)` on a length mismatch is `Except.error`; the
zero-norm guard returns `0.0`; otherwise the quotient is clamped into
`[0, 1]` by `max(0.0, min(1.0, ...))`.  `x ** 0.5` is the abstract
`sqrt` parameter. -/
def cosine_similarity (sqrt : ℚ → ℚ) (a b : List ℚ) : Except String ℚ :=
  if a.length ≠ b.length then
    .error "Embedding vectors must be of same length"
  else
    let dot := dotZip a b
    let na := naZip a b
    let nb := nbZip a b
    if na = 0 ∨ nb = 0 then .ok 0
    else .ok (max 0 (min 1 (dot / (sqrt na * sqrt nb))))

/-! ## MergeDeduplicator (claim_graph.py, `_merge_and_dedupe`) -/

/-- The `seen`-set loop of `_merge_and_dedupe`: iterate in order, keep a
node iff its lower-cased label was not seen before. -/
def dedupeFirstSeen : List String → List ClaimNode → List ClaimNode
  | _, [] => []
  | seen, n :: ns =>
    if n.label.toLower ∈ seen then dedupeFirstSeen seen ns
    else n :: dedupeFirstSeen (n.label.toLower :: seen) ns

/-- `get_confidence` (claim_graph.py lines 250-253): the verification
confidence of the first source, `0.0` when there is none. -/
def get_confidence (node : ClaimNode) : ℚ :=
  match node.sources with
  | [] => 0
  | s :: _ =>
    match s.verification with
    | some v => v.confidence
    | none => 0

/-- The comparator realising Python's stable
`sort(key=get_confidence, reverse=True)`: `a` may precede `b` iff
`get_confidence b ≤ get_confidence a`. -/
def confDesc (a b : ClaimNode) : Bool :=
  decide (get_confidence b ≤ get_confidence a)

/-- `_merge_and_dedupe` (claim_graph.py lines 231-258): first-seen
dedupe by lower-cased label, stable sort descending by confidence,
truncate to `max_claims`. -/
def _merge_and_dedupe (nodes : List ClaimNode) (max_claims : Nat) :
    List ClaimNode :=
  ((dedupeFirstSeen [] nodes).mergeSort confDesc).take max_claims

/-- The dedupe key the SPEC describes (section 3: "lower-cased,
whitespace-normalized label"): collapse whitespace runs, then lower-case.
This is NOT the key the code uses; it exists to state the spec's claim. -/
def wsNormKey (s : String) : String :=
  (" ".intercalate ((s.split Char.isWhitespace).filter (fun t => t ≠ ""))).toLower

/-! ## Events

The SSE events the builder pushes through its `emit` callback, plus the
two events the `/graph/stream` endpoint (main.py) appends itself.  The
Python `claim_verified` payload carries either a `verification` result
or an `error` string; the two shapes are two constructors. -/

inductive Event where
  | claim_generated (node : ClaimNode)
  | claim_verifying (nodeId label : String)
  | claim_verified_result (nodeId : String) (verification : VerificationResult)
  | claim_verified_error (nodeId : String) (error : String)
  | sources_found (nodeId : String) (market : KalshiMarket)
  | graph_complete (nodes : List ClaimNode) (edges : List ClaimEdge) (coreId : String)
  | error_event (error : String)
deriving DecidableEq, Repr

/-- Fresh node-id supply standing in for `f"claim-{uuid.uuid4().hex[:12]}"`. -/
def claimId (counter : Nat) : String := "claim-" ++ toString counter

/-! ## RootClaimInitializer (claim_graph.py, `_add_root_claim`) -/

/-- `_add_root_claim` (claim_graph.py lines 107-129): the root node and
the `claim_generated` event it emits. -/
def _add_root_claim (worldview : String) (counter : Nat) : ClaimNode × Event :=
  let root : ClaimNode :=
    { id := claimId counter
      label := worldview
      status := "verified"
      sources := []
      similarity := 1
      hop := 0 }
  (root, .claim_generated root)

/-! ## ClaimNodeFactory (claim_graph.py, `_create_derivative_nodes`) -/

/-- The per-derivative body of `_create_derivative_nodes`: cosine to the
worldview embedding (a raised mismatch propagates — fatal), a node with
`status="generated"`, `hop=1`, a `claim_generated` event, and a
`root → node` edge of type `derives_from` weighted by the similarity. -/
def createNodesLoop (embed : String → List ℚ) (sqrt : ℚ → ℚ)
    (wvec : List ℚ) (root_id : String) :
    List String → Nat → Except String (List ClaimNode × List ClaimEdge × List Event)
  | [], _ => .ok ([], [], [])
  | claim :: rest, counter => do
    let sim ← cosine_similarity sqrt wvec (embed claim)
    let node : ClaimNode :=
      { id := claimId counter
        label := claim
        status := "generated"
        sources := []
        similarity := sim
        hop := 1 }
    let edge : ClaimEdge :=
      { source := root_id, target := node.id, type := "derives_from", weight := sim }
    let (ns, es, evs) ← createNodesLoop embed sqrt wvec root_id rest (counter + 1)
    .ok (node :: ns, edge :: es, Event.claim_generated node :: evs)

/-- `_create_derivative_nodes` (claim_graph.py lines 140-186): embed the
worldview once, then process every derivative string in order. -/
def _create_derivative_nodes (embed : String → List ℚ) (sqrt : ℚ → ℚ)
    (worldview : String) (derivatives : List String) (root_id : String)
    (counter : Nat) :
    Except String (List ClaimNode × List ClaimEdge × List Event) :=
  createNodesLoop embed sqrt (embed worldview) root_id derivatives counter

/-! ## ParallelVerifier (claim_graph.py, `_verify_claims_parallel`) -/

/-- `verify_one` (claim_graph.py lines 192-227): set `status="verifying"`
and emit `claim_verifying`; on success append a verification-only source,
set `status="verified"` and emit the result; on any exception set
`status="failed"` and emit `claim_verified` with the error string. -/
def verify_one (verify : String → Except String VerificationResult)
    (node : ClaimNode) : ClaimNode × List Event :=
  let verifying : ClaimNode := { node with status := "verifying" }
  match verify verifying.label with
  | .ok v =>
    let verified : ClaimNode :=
      { verifying with
        sources := verifying.sources ++ [{ verification := some v, kalshi_market := none }]
        status := "verified" }
    (verified, [Event.claim_verifying node.id node.label,
                Event.claim_verified_result node.id v])
  | .error e =>
    ({ verifying with status := "failed" },
     [Event.claim_verifying node.id node.label,
      Event.claim_verified_error node.id e])

/-- `_verify_claims_parallel` (claim_graph.py lines 186-229): every node
goes through `verify_one`; the semaphore-bounded `asyncio.gather` is
modelled as an in-order traversal (each task touches only its node). -/
def _verify_claims_parallel (verify : String → Except String VerificationResult) :
    List ClaimNode → List ClaimNode × List Event
  | [] => ([], [])
  | n :: ns =>
    let (n', evs) := verify_one verify n
    let (ns', evs') := _verify_claims_parallel verify ns
    (n' :: ns', evs ++ evs')

/-! ## SourceAttacher (claim_graph.py, `_attach_market_sources`) -/

/-- The evaluation of the call expression
`self.kalshi_client.search(node.label, limit=3)` (claim_graph.py line
267).  `KalshiClient.search` (kalshi_client.py line 45) is declared
`search(self, query: str, k: int)`: it has no parameter named `limit`,
so under Python calling semantics this expression raises
`TypeError: search() got an unexpected keyword argument 'limit'` before
the collaborator body ever runs, whatever the collaborator `search`
would have returned. -/
def kalshi_search_call (search : String → Nat → Except String (List Candidate))
    (label : String) : Except String (List Candidate) :=
  .error "TypeError: search() got an unexpected keyword argument limit"

/-- The per-node body of `_attach_market_sources` (claim_graph.py lines
264-300), parameterised by the semantics `searchInvoke` of the search
call expression.  An exception or an empty candidate list is a no-op;
otherwise the top candidate becomes a `KalshiMarket` with the fixed
`relevance=0.8` and replaces slot 0 of `sources`, keeping the slot's
existing verification; a `sources_found` event is emitted. -/
def attach_one (searchInvoke : String → Except String (List Candidate))
    (node : ClaimNode) : ClaimNode × List Event :=
  match searchInvoke node.label with
  | .error _ => (node, [])
  | .ok [] => (node, [])
  | .ok (top :: _) =>
    let market : KalshiMarket :=
      { id := top.id
        title := top.title
        url := (match top.url with | some u => u | none => "")
        relevance := 0.8 }
    let source : ClaimSource :=
      { verification := (match node.sources with | [] => none | s :: _ => s.verification)
        kalshi_market := some market }
    let node' : ClaimNode :=
      { node with
        sources := (match node.sources with | [] => [source] | _ :: rest => source :: rest) }
    (node', [Event.sources_found node.id market])

/-- `_attach_market_sources` (claim_graph.py lines 260-302): every node
goes through `attach_one`; the semaphore-bounded `asyncio.gather` is
modelled as an in-order traversal. -/
def _attach_market_sources (searchInvoke : String → Except String (List Candidate)) :
    List ClaimNode → List ClaimNode × List Event
  | [] => ([], [])
  | n :: ns =>
    let (n', evs) := attach_one searchInvoke n
    let (ns', evs') := _attach_market_sources searchInvoke ns
    (n' :: ns', evs ++ evs')

/-! ## SimilarityEdgeBuilder (claim_graph.py, `_build_claim_edges`) -/

/-- The `node_to_vec` dict of `_build_claim_edges`, as an insertion-order
association list. -/
def node_to_vec (embed : String → List ℚ) (nodes : List ClaimNode) :
    List (String × List ℚ) :=
  nodes.map (fun n => (n.id, embed n.label))

/-- Python dict indexing `node_to_vec[key]`: later insertions overwrite
earlier ones, so the LAST binding wins; a missing key raises. -/
def dictLookup (m : List (String × List ℚ)) (key : String) : Except String (List ℚ) :=
  match m.reverse.lookup key with
  | some v => .ok v
  | none => .error "KeyError"

/-- The inner `for j in range(i+1, ...)` loop of `_build_claim_edges`:
pair `ni` with every later node, adding a `similar_to` edge whenever the
cosine similarity reaches the threshold. -/
def claimEdgesInner (sqrt : ℚ → ℚ) (m : List (String × List ℚ)) (threshold : ℚ)
    (ni : ClaimNode) : List ClaimNode → Except String (List ClaimEdge)
  | [] => .ok []
  | nj :: rest => do
    let vi ← dictLookup m ni.id
    let vj ← dictLookup m nj.id
    let sim ← cosine_similarity sqrt vi vj
    let tail ← claimEdgesInner sqrt m threshold ni rest
    if threshold ≤ sim then
      .ok ({ source := ni.id, target := nj.id, type := "similar_to", weight := sim } :: tail)
    else
      .ok tail

/-- The outer `for i in range(...)` loop of `_build_claim_edges`. -/
def claimEdgesOuter (sqrt : ℚ → ℚ) (m : List (String × List ℚ)) (threshold : ℚ) :
    List ClaimNode → Except String (List ClaimEdge)
  | [] => .ok []
  | n :: rest => do
    let here ← claimEdgesInner sqrt m threshold n rest
    let tail ← claimEdgesOuter sqrt m threshold rest
    .ok (here ++ tail)

/-- `_build_claim_edges` (claim_graph.py lines 304-332): embed every
node's label into `node_to_vec`, then add a `similar_to` edge for every
unordered pair whose cosine similarity is `>= threshold`, weighted by
that similarity.  Returns the edges appended to `self.edges`. -/
def _build_claim_edges (embed : String → List ℚ) (sqrt : ℚ → ℚ)
    (nodes : List ClaimNode) (threshold : ℚ) : Except String (List ClaimEdge) :=
  claimEdgesOuter sqrt (node_to_vec embed nodes) threshold nodes

/-! ## The primary pipeline (claim_graph.py, `build_from_worldview`) -/

/-- `build_from_worldview` (claim_graph.py lines 50-104).  The
collaborators are parameters: `generate` is the resolved result of
`derivatives_client.generate_multiple_sets` (an exception is `.error`),
`verify` the verification agent, `search` the Kalshi client (whose
invocation goes through `kalshi_search_call`).  `k` is accepted and,
as in the code, never influences the result (the attach stage passes
`limit=3` instead).  Returns the final nodes `[root] + merged`, the
accumulated `self.edges`, the root id, and the emitted event log. -/
def build_from_worldview (generate : Except String (List (List String)))
    (embed : String → List ℚ) (sqrt : ℚ → ℚ)
    (verify : String → Except String VerificationResult)
    (search : String → Nat → Except String (List Candidate))
    (worldview : String) (k : Nat) (max_claims : Nat) (threshold : ℚ) :
    Except String (List ClaimNode × List ClaimEdge × String × List Event) := do
  let (root, rootEv) := _add_root_claim worldview 0
  let derivative_sets ← generate
  let all_derivatives := derivative_sets.flatten
  let (derivative_nodes, derive_edges, createEvs) ←
    _create_derivative_nodes embed sqrt worldview all_derivatives root.id 1
  let (verified_nodes, verifyEvs) := _verify_claims_parallel verify derivative_nodes
  let merged_nodes := _merge_and_dedupe verified_nodes max_claims
  let (attached_nodes, attachEvs) :=
    _attach_market_sources (kalshi_search_call search) merged_nodes
  let sim_edges ← _build_claim_edges embed sqrt attached_nodes threshold
  .ok (root :: attached_nodes, derive_edges ++ sim_edges, root.id,
       rootEv :: (createEvs ++ verifyEvs ++ attachEvs))

/-- The `/graph/stream` event stream (main.py `event_generator`): on
success replay the collected events and append `graph_complete`; on a
fatal exception emit only the terminal `error` event. -/
def graph_stream_events (generate : Except String (List (List String)))
    (embed : String → List ℚ) (sqrt : ℚ → ℚ)
    (verify : String → Except String VerificationResult)
    (search : String → Nat → Except String (List Candidate))
    (worldview : String) (k : Nat) (max_claims : Nat) (threshold : ℚ) :
    List Event :=
  match build_from_worldview generate embed sqrt verify search worldview k max_claims threshold with
  | .ok (nodes, edges, root_id, events) =>
    events ++ [Event.graph_complete nodes edges root_id]
  | .error e => [Event.error_event e]

/-! ## Alternative candidate/BFS graph builder (graph.py, `build_graph`) -/

/-- The candidate text embedded by `build_graph`:
`title if not description else f"{title}. {description}"`.  Python's
`not description` is true both for `None` and for the empty string. -/
def candidateText (c : Candidate) : String :=
  match c.description with
  | none => c.title
  | some d => if d = "" then c.title else c.title ++ ". " ++ d

/-- The `id_to_vec` dict of `build_graph`, as an insertion-order
association list over candidate ids. -/
def id_to_vec (embed : String → List ℚ) (candidates : List Candidate) :
    List (String × List ℚ) :=
  candidates.map (fun c => (c.id, embed (candidateText c)))

/-- Python dict `.get(key)`: `none` when absent, last insertion wins. -/
def dictGet (m : List (String × List ℚ)) (key : String) : Option (List ℚ) :=
  m.reverse.lookup key

/-- The node-building loop of `build_graph` (graph.py lines 40-57): skip
a candidate whose vector is missing, otherwise a `GraphNode` with the
worldview similarity and the `hop=-1` sentinel. -/
def graphNodesLoop (sqrt : ℚ → ℚ) (wvec : List ℚ) (m : List (String × List ℚ)) :
    List Candidate → Except String (List GraphNode)
  | [] => .ok []
  | c :: cs =>
    match dictGet m c.id with
    | none => graphNodesLoop sqrt wvec m cs
    | some vec => do
      let sim ← cosine_similarity sqrt wvec vec
      let rest ← graphNodesLoop sqrt wvec m cs
      .ok ({ id := c.id
             label := c.title
             url := c.url
             type := c.type
             similarity := sim
             hop := -1 } :: rest)

/-- `core = max(nodes, key=lambda n: n.similarity)` (graph.py line 60):
Python's `max` scans left to right and replaces the incumbent only on a
STRICT increase, so the first occurrence wins among ties. -/
def pickCore (n0 : GraphNode) (rest : List GraphNode) : GraphNode :=
  rest.foldl (fun best n => if best.similarity < n.similarity then n else best) n0

/-- The inner pair loop of the edge construction in `build_graph`
(graph.py lines 64-78), over node ids with dict indexing. -/
def graphEdgesInner (sqrt : ℚ → ℚ) (m : List (String × List ℚ)) (threshold : ℚ)
    (idi : String) : List String → Except String (List GraphEdge)
  | [] => .ok []
  | idj :: rest => do
    let vi ← dictLookup m idi
    let vj ← dictLookup m idj
    let w ← cosine_similarity sqrt vi vj
    let tail ← graphEdgesInner sqrt m threshold idi rest
    if threshold ≤ w then
      .ok ({ source := idi, target := idj, weight := w } :: tail)
    else
      .ok tail

/-- The outer pair loop of the edge construction in `build_graph`. -/
def graphEdgesOuter (sqrt : ℚ → ℚ) (m : List (String × List ℚ)) (threshold : ℚ) :
    List String → Except String (List GraphEdge)
  | [] => .ok []
  | idi :: rest => do
    let here ← graphEdgesInner sqrt m threshold idi rest
    let tail ← graphEdgesOuter sqrt m threshold rest
    .ok (here ++ tail)

/-- The adjacency lists of `build_graph` (graph.py lines 80-84): for
each edge, `adj[source].append(target)` then `adj[target].append(source)`. -/
def adjOf (edges : List GraphEdge) (x : String) : List String :=
  edges.flatMap (fun e =>
    (if e.source = x then [e.target] else []) ++
    (if e.target = x then [e.source] else []))

/-- The body of the BFS neighbour scan (graph.py lines 93-96): a
neighbour `nxt` still at the `-1` sentinel is assigned
`hop_map[cur] + 1` and appended to the queue. -/
def bfsVisit (cur : String) (p : (String → Int) × List String)
    (nxt : String) : (String → Int) × List String :=
  if p.1 nxt = -1 then
    (fun x => if x = nxt then p.1 cur + 1 else p.1 x, p.2 ++ [nxt])
  else p

/-- One dequeue of the BFS loop (graph.py lines 90-96): scan the
neighbours of `cur`. -/
def bfsStep (adj : String → List String) (cur : String) (hm : String → Int)
    (q : List String) : (String → Int) × List String :=
  (adj cur).foldl (bfsVisit cur) (hm, q)

/-- The `while qi < len(queue)` BFS loop of `build_graph`, with the queue
modelled as the not-yet-dequeued suffix.  `fuel` bounds the number of
dequeues; every id is enqueued at most once (its sentinel is cleared when
it is enqueued and a cleared sentinel is never reset), so
`number of node ids + 1` dequeues always exhaust the queue and the fuel
passed by `build_graph` is sufficient. -/
def bfsLoop (adj : String → List String) :
    Nat → (String → Int) → List String → (String → Int)
  | 0, hm, _ => hm
  | _ + 1, hm, [] => hm
  | fuel + 1, hm, cur :: rest =>
    let s := bfsStep adj cur hm rest
    bfsLoop adj fuel s.1 s.2

/-- `hop_map` after the BFS of `build_graph` (graph.py lines 86-96):
initialised to the `-1` sentinel everywhere except `hop_map[core_id]=0`,
then run from the queue `[core_id]`. -/
def bfsHopMap (edges : List GraphEdge) (core_id : String) (fuel : Nat) :
    String → Int :=
  bfsLoop (adjOf edges) fuel (fun x => if x = core_id then 0 else -1) [core_id]

/-- The node filter of `build_graph` (graph.py lines 98-108): drop the
`-1` sentinel (unreachable), keep assigned hops `<= max_hops`, writing
the assigned hop into the node. -/
def filterNodes (hm : String → Int) (max_hops : Int) (nodes : List GraphNode) :
    List GraphNode :=
  nodes.filterMap (fun n =>
    if hm n.id = -1 then none
    else if hm n.id ≤ max_hops then some { n with hop := hm n.id } else none)

/-- The edge filter of `build_graph` (graph.py line 110): keep edges
whose both endpoints survive the node filter. -/
def filterEdges (edges : List GraphEdge) (idset : List String) :
    List GraphEdge :=
  edges.filter (fun e => idset.contains e.source && idset.contains e.target)

/-- `build_graph` (graph.py lines 11-113): embed worldview and
candidates, build nodes (fatal `ValueError` when none), pick the core by
maximal similarity, build threshold edges, BFS hop assignment from the
core, then filter nodes by assigned hop `<= max_hops` and keep edges
whose both endpoints survive.  `k` is accepted and unused, as in the
code. -/
def build_graph (embed : String → List ℚ) (sqrt : ℚ → ℚ) (worldview : String)
    (k : Nat) (max_hops : Int) (threshold : ℚ) (candidates : List Candidate) :
    Except String (List GraphNode × List GraphEdge × String) := do
  let worldview_vec := embed worldview
  let m := id_to_vec embed candidates
  let nodes ← graphNodesLoop sqrt worldview_vec m candidates
  match nodes with
  | [] => .error "No valid nodes found from Kalshi results"
  | n0 :: rest =>
    let core_id := (pickCore n0 rest).id
    let id_list := (n0 :: rest).map (fun n => n.id)
    let edges ← graphEdgesOuter sqrt m threshold id_list
    let hm := bfsHopMap edges core_id ((n0 :: rest).length + 1)
    let filtered_nodes := filterNodes hm max_hops (n0 :: rest)
    let filtered_edges := filterEdges edges (filtered_nodes.map (fun n => n.id))
    .ok (filtered_nodes, filtered_edges, core_id)

/-! ## Derived total forms and basic lemmas -/

/-- The value `cosine_similarity` returns on equal-length vectors. -/
def simVal (sqrt : ℚ → ℚ) (a b : List ℚ) : ℚ :=
  if naZip a b = 0 ∨ nbZip a b = 0 then 0
  else max 0 (min 1 (dotZip a b / (sqrt (naZip a b) * sqrt (nbZip a b))))

theorem cosine_similarity_eq_ok {sqrt : ℚ → ℚ} {a b : List ℚ}
    (h : a.length = b.length) :
    cosine_similarity sqrt a b = .ok (simVal sqrt a b) := by
  unfold cosine_similarity simVal
  rw [if_neg (by simp [h])]
  by_cases hz : naZip a b = 0 ∨ nbZip a b = 0
  · rw [if_pos hz, if_pos hz]
  · rw [if_neg hz, if_neg hz]

theorem simVal_nonneg (sqrt : ℚ → ℚ) (a b : List ℚ) : 0 ≤ simVal sqrt a b := by
  unfold simVal
  by_cases hz : naZip a b = 0 ∨ nbZip a b = 0
  · rw [if_pos hz]
  · rw [if_neg hz]; exact le_max_left 0 _

theorem simVal_le_one (sqrt : ℚ → ℚ) (a b : List ℚ) : simVal sqrt a b ≤ 1 := by
  unfold simVal
  by_cases hz : naZip a b = 0 ∨ nbZip a b = 0
  · rw [if_pos hz]; norm_num
  · rw [if_neg hz]
    exact max_le (by norm_num) (min_le_left 1 _)

/-! ## C10 -/

/-- C10: `cosine_similarity` errors exactly on a length mismatch; for
equal-length vectors it returns `0` when either vector has zero norm
(zero squared-norm accumulator), otherwise the clamped cosine quotient;
and every non-error result lies in `[0, 1]`. -/
theorem cosine_similarity_spec (sqrt : ℚ → ℚ) (a b : List ℚ) :
    (a.length ≠ b.length →
      cosine_similarity sqrt a b = .error "Embedding vectors must be of same length") ∧
    (a.length = b.length → (naZip a b = 0 ∨ nbZip a b = 0) →
      cosine_similarity sqrt a b = .ok 0) ∧
    (a.length = b.length → ¬(naZip a b = 0 ∨ nbZip a b = 0) →
      cosine_similarity sqrt a b =
        .ok (max 0 (min 1 (dotZip a b / (sqrt (naZip a b) * sqrt (nbZip a b)))))) ∧
    (∀ q : ℚ, cosine_similarity sqrt a b = .ok q → 0 ≤ q ∧ q ≤ 1) := by
  refine ⟨fun hne => ?_, fun he hz => ?_, fun he hz => ?_, fun q hq => ?_⟩
  · unfold cosine_similarity
    rw [if_pos hne]
  · rw [cosine_similarity_eq_ok he]
    unfold simVal
    rw [if_pos hz]
  · rw [cosine_similarity_eq_ok he]
    unfold simVal
    rw [if_neg hz]
  · by_cases he : a.length = b.length
    · rw [cosine_similarity_eq_ok he] at hq
      cases hq
      exact ⟨simVal_nonneg sqrt a b, simVal_le_one sqrt a b⟩
    · unfold cosine_similarity at hq
      rw [if_pos he] at hq
      cases hq

/-- C10 witness: the three reachable behaviours at concrete inputs — a
length mismatch errors, a zero vector yields `0`, and a non-error result
lies in `[0, 1]`. -/
theorem cosine_similarity_spec_witness :
    (cosine_similarity (fun q => q) [1] [1, 2] =
      .error "Embedding vectors must be of same length") ∧
    (cosine_similarity (fun q => q) [0, 0] [1, 2] = .ok 0) ∧
    (cosine_similarity (fun q => q) [1, 0] [1, 0] =
      .ok (max 0 (min 1 (dotZip [1, 0] [1, 0] /
        (((fun q : ℚ => q) (naZip [1, 0] [1, 0])) *
         ((fun q : ℚ => q) (nbZip [1, 0] [1, 0]))))))) ∧
    (0 ≤ (0 : ℚ) ∧ (0 : ℚ) ≤ 1) := by
  have hzero : cosine_similarity (fun q : ℚ => q) [0, 0] [1, 2] = .ok 0 :=
    (cosine_similarity_spec (fun q => q) [0, 0] [1, 2]).2.1 rfl (Or.inl (by simp [naZip]))
  refine ⟨(cosine_similarity_spec (fun q => q) [1] [1, 2]).1 (by decide),
          hzero,
          (cosine_similarity_spec (fun q => q) [1, 0] [1, 0]).2.2.1 rfl
            (by simp [naZip, nbZip]),
          (cosine_similarity_spec (fun q => q) [0, 0] [1, 2]).2.2.2 0 hzero⟩

/-! ## C1: MergeDeduplicator -/

theorem dedupeFirstSeen_subset (seen : List String) (ns : List ClaimNode) :
    ∀ n ∈ dedupeFirstSeen seen ns, n ∈ ns := by
  induction ns generalizing seen with
  | nil => simp [dedupeFirstSeen]
  | cons a tl ih =>
    unfold dedupeFirstSeen
    by_cases h : a.label.toLower ∈ seen
    · rw [if_pos h]
      intro n hn
      exact List.mem_cons_of_mem a (ih seen n hn)
    · rw [if_neg h]
      intro n hn
      rcases List.mem_cons.mp hn with h1 | h1
      · exact h1 ▸ List.mem_cons_self a tl
      · exact List.mem_cons_of_mem a (ih _ n h1)

theorem dedupeFirstSeen_notin (seen : List String) (ns : List ClaimNode) :
    ∀ n ∈ dedupeFirstSeen seen ns, n.label.toLower ∉ seen := by
  induction ns generalizing seen with
  | nil => simp [dedupeFirstSeen]
  | cons a tl ih =>
    unfold dedupeFirstSeen
    by_cases h : a.label.toLower ∈ seen
    · rw [if_pos h]
      exact ih seen
    · rw [if_neg h]
      intro n hn
      rcases List.mem_cons.mp hn with h1 | h1
      · exact h1 ▸ h
      · intro hmem
        exact ih _ n h1 (List.mem_cons_of_mem _ hmem)

theorem dedupeFirstSeen_pairwise (seen : List String) (ns : List ClaimNode) :
    (dedupeFirstSeen seen ns).Pairwise
      (fun a b => a.label.toLower ≠ b.label.toLower) := by
  induction ns generalizing seen with
  | nil => simp [dedupeFirstSeen]
  | cons a tl ih =>
    unfold dedupeFirstSeen
    by_cases h : a.label.toLower ∈ seen
    · rw [if_pos h]
      exact ih seen
    · rw [if_neg h]
      refine List.Pairwise.cons (fun m hm => ?_) (ih _)
      have := dedupeFirstSeen_notin _ tl m hm
      intro heq
      exact this (heq ▸ List.mem_cons_self _ _)

theorem dedupeFirstSeen_firstSeen (seen : List String) (ns : List ClaimNode) :
    ∀ n ∈ dedupeFirstSeen seen ns,
      ∃ l1 l2, ns = l1 ++ n :: l2 ∧
        ∀ m ∈ l1, m.label.toLower ≠ n.label.toLower := by
  induction ns generalizing seen with
  | nil => simp [dedupeFirstSeen]
  | cons a tl ih =>
    unfold dedupeFirstSeen
    by_cases h : a.label.toLower ∈ seen
    · rw [if_pos h]
      intro n hn
      obtain ⟨l1, l2, heq, hne⟩ := ih seen n hn
      refine ⟨a :: l1, l2, by simp [heq], fun m hm => ?_⟩
      rcases List.mem_cons.mp hm with h1 | h1
      · subst h1
        intro heq'
        exact dedupeFirstSeen_notin seen tl n hn (heq' ▸ h)
      · exact hne m h1
    · rw [if_neg h]
      intro n hn
      rcases List.mem_cons.mp hn with h1 | h1
      · exact ⟨[], tl, by simp [h1], by simp⟩
      · obtain ⟨l1, l2, heq, hne⟩ := ih _ n h1
        refine ⟨a :: l1, l2, by simp [heq], fun m hm => ?_⟩
        rcases List.mem_cons.mp hm with h2 | h2
        · subst h2
          intro heq'
          exact dedupeFirstSeen_notin _ tl n h1 (heq' ▸ List.mem_cons_self _ _)
        · exact hne m h2

theorem confDesc_trans (a b c : ClaimNode) :
    confDesc a b = true → confDesc b c = true → confDesc a c = true := by
  simp only [confDesc, decide_eq_true_eq]
  exact fun h1 h2 => le_trans h2 h1

theorem confDesc_total (a b : ClaimNode) :
    (confDesc a b || confDesc b a) = true := by
  simp only [confDesc, Bool.or_eq_true, decide_eq_true_eq]
  exact (le_total (get_confidence b) (get_confidence a))

/-- C1 (amended): the deduplicator's output labels are pairwise distinct
under CASE-INSENSITIVE comparison (the code's key is `label.lower()`,
with no whitespace normalization); every output node is the first
occurrence of its case-insensitive label group in the input; the output
has at most `max_claims` nodes; and the output confidence sequence is
non-increasing, where a node's confidence is the verification confidence
of its first source and `0` otherwise. -/
theorem merge_and_dedupe_spec (nodes : List ClaimNode) (max_claims : Nat) :
    (_merge_and_dedupe nodes max_claims).Pairwise
        (fun a b => a.label.toLower ≠ b.label.toLower) ∧
    (∀ n ∈ _merge_and_dedupe nodes max_claims,
        ∃ l1 l2, nodes = l1 ++ n :: l2 ∧
          ∀ m ∈ l1, m.label.toLower ≠ n.label.toLower) ∧
    (_merge_and_dedupe nodes max_claims).length ≤ max_claims ∧
    ((_merge_and_dedupe nodes max_claims).map get_confidence).Sorted (· ≥ ·) := by
  unfold _merge_and_dedupe
  have perm := List.mergeSort_perm (dedupeFirstSeen [] nodes) confDesc
  refine ⟨?_, ?_, ?_, ?_⟩
  · refine List.Pairwise.sublist (List.take_sublist _ _) ?_
    exact (perm.pairwise_iff (fun h => (Ne.symm h))).mpr
      (dedupeFirstSeen_pairwise [] nodes)
  · intro n hn
    have hn' : n ∈ dedupeFirstSeen [] nodes :=
      perm.mem_iff.mp ((List.take_sublist _ _).mem hn)
    exact dedupeFirstSeen_firstSeen [] nodes n hn'
  · exact List.length_take_le max_claims _
  · have hs := List.sorted_mergeSort confDesc_trans confDesc_total
      (dedupeFirstSeen [] nodes)
    refine List.pairwise_map.mpr ?_
    refine List.Pairwise.sublist (List.take_sublist _ _) ?_
    refine hs.imp ?_
    intro a b hab
    exact ge_iff_le.mpr (by simpa [confDesc, decide_eq_true_eq] using hab)

/-- First node of the C1 counterexample: label with a single space. -/
def nodeWS1 : ClaimNode :=
  { id := "claim-a", label := "a b", status := "failed", sources := [],
    similarity := 1, hop := 1 }

/-- Second node of the C1 counterexample: same label up to whitespace
normalization, different lower-cased string (two spaces). -/
def nodeWS2 : ClaimNode :=
  { id := "claim-b", label := "a  b", status := "failed", sources := [],
    similarity := 1, hop := 1 }

unseal String.mapAux String.splitAux List.merge List.mergeSort in
/-- C1 counterexample: the code's dedupe key is `label.lower()`, with no
whitespace normalization, so the labels `"a b"` and `"a  b"` BOTH
survive `_merge_and_dedupe`, yet they are equal under the claimed
case-insensitive, whitespace-normalized comparison — the claimed
pairwise-distinctness fails on this input. -/
theorem merge_and_dedupe_wsnorm_refuted :
    ¬ ((_merge_and_dedupe [nodeWS1, nodeWS2] 40).Pairwise
        (fun a b => wsNormKey a.label ≠ wsNormKey b.label)) := by
  decide

unseal String.mapAux List.merge List.mergeSort in
/-- C1 witness: the amended theorem applied to the concrete two-node
input, instantiating the membership hypothesis of its first-seen
conjunct. -/
theorem merge_and_dedupe_spec_witness :
    ∃ l1 l2, [nodeWS1, nodeWS2] = l1 ++ nodeWS1 :: l2 ∧
      ∀ m ∈ l1, m.label.toLower ≠ nodeWS1.label.toLower :=
  (merge_and_dedupe_spec [nodeWS1, nodeWS2] 40).2.1 nodeWS1 (by decide)

/-! ## C8: SourceAttacher -/

/-- C8 (code-bug evidence): the attach stage's collaborator invocation
`search(node.label, limit=3)` always raises (the `KalshiClient.search`
signature has no `limit` parameter), and the blanket `except` turns every
node into a no-op — whatever the market-search collaborator would have
returned, `_attach_market_sources` returns every node unchanged and
emits no `sources_found` event. -/
theorem attach_market_sources_noop
    (search : String → Nat → Except String (List Candidate))
    (nodes : List ClaimNode) :
    (∀ label, kalshi_search_call search label =
      .error "TypeError: search() got an unexpected keyword argument limit") ∧
    _attach_market_sources (kalshi_search_call search) nodes = (nodes, []) := by
  refine ⟨fun _ => rfl, ?_⟩
  induction nodes with
  | nil => rfl
  | cons n tl ih =>
    simp [_attach_market_sources, attach_one, kalshi_search_call, ih]

/-! ## C2: SimilarityEdgeBuilder -/

/-- The similarity the edge builder computes for two nodes: the (total)
cosine of their label embeddings. -/
def labelSim (embed : String → List ℚ) (sqrt : ℚ → ℚ) (a b : ClaimNode) : ℚ :=
  simVal sqrt (embed a.label) (embed b.label)

/-- The edge `_build_claim_edges` appends for a qualifying pair. -/
def mkSimilarEdge (embed : String → List ℚ) (sqrt : ℚ → ℚ) (ni nj : ClaimNode) :
    ClaimEdge :=
  { source := ni.id, target := nj.id, type := "similar_to",
    weight := labelSim embed sqrt ni nj }

/-- Pure description of the `_build_claim_edges` double loop. -/
def claimEdgesSpec (embed : String → List ℚ) (sqrt : ℚ → ℚ) (threshold : ℚ) :
    List ClaimNode → List ClaimEdge
  | [] => []
  | n :: rest =>
    (rest.filterMap (fun nj =>
      if threshold ≤ labelSim embed sqrt n nj then
        some (mkSimilarEdge embed sqrt n nj)
      else none)) ++ claimEdgesSpec embed sqrt threshold rest

theorem mem_id_inj {l : List ClaimNode}
    (hids : l.Pairwise (fun a b => a.id ≠ b.id)) :
    ∀ a ∈ l, ∀ b ∈ l, a.id = b.id → a = b := by
  induction l with
  | nil => simp
  | cons m tl ih =>
    rcases List.pairwise_cons.mp hids with ⟨hm, htl⟩
    intro a ha b hb heq
    rcases List.mem_cons.mp ha with h1 | h1 <;>
      rcases List.mem_cons.mp hb with h2 | h2
    · exact h1.trans h2.symm
    · subst h1; exact absurd heq (hm b h2)
    · subst h2; exact absurd heq.symm (hm a h1)
    · exact ih htl a h1 b h2 heq

theorem lookup_node_to_vec {embed : String → List ℚ} {l : List ClaimNode}
    (hids : l.Pairwise (fun a b => a.id ≠ b.id)) {n : ClaimNode} (hn : n ∈ l) :
    (l.map (fun x => (x.id, embed x.label))).lookup n.id = some (embed n.label) := by
  induction l with
  | nil => cases hn
  | cons m tl ih =>
    rcases List.pairwise_cons.mp hids with ⟨hm, htl⟩
    rcases List.mem_cons.mp hn with h1 | h1
    · subst h1
      simp [List.lookup]
    · have hne : (n.id == m.id) = false := by
        simp only [beq_eq_false_iff_ne, ne_eq]
        exact fun h => (hm n h1) h.symm
      simp [List.lookup, hne]
      exact ih htl h1

theorem dictLookup_node_to_vec {embed : String → List ℚ} {nodes : List ClaimNode}
    (hids : nodes.Pairwise (fun a b => a.id ≠ b.id)) {n : ClaimNode}
    (hn : n ∈ nodes) :
    dictLookup (node_to_vec embed nodes) n.id = .ok (embed n.label) := by
  have hrev : nodes.reverse.Pairwise (fun a b => a.id ≠ b.id) :=
    (List.pairwise_reverse).mpr (hids.imp fun h => Ne.symm h)
  have : (node_to_vec embed nodes).reverse =
      nodes.reverse.map (fun x => (x.id, embed x.label)) := by
    simp [node_to_vec, List.map_reverse]
  rw [dictLookup, this, lookup_node_to_vec hrev (List.mem_reverse.mpr hn)]

theorem claimEdgesInner_eq {embed : String → List ℚ} {sqrt : ℚ → ℚ}
    {nodes : List ClaimNode} (hids : nodes.Pairwise (fun a b => a.id ≠ b.id))
    (hdim : ∀ s t : String, (embed s).length = (embed t).length)
    (threshold : ℚ) {ni : ClaimNode} (hni : ni ∈ nodes) :
    ∀ rest : List ClaimNode, (∀ x ∈ rest, x ∈ nodes) →
      claimEdgesInner sqrt (node_to_vec embed nodes) threshold ni rest =
        .ok (rest.filterMap (fun nj =>
          if threshold ≤ labelSim embed sqrt ni nj then
            some (mkSimilarEdge embed sqrt ni nj)
          else none)) := by
  intro rest
  induction rest with
  | nil => intro _; rfl
  | cons nj tl ih =>
    intro hsub
    have hj : nj ∈ nodes := hsub nj (List.mem_cons_self _ _)
    have htl : ∀ x ∈ tl, x ∈ nodes := fun x hx => hsub x (List.mem_cons_of_mem _ hx)
    unfold claimEdgesInner
    rw [dictLookup_node_to_vec hids hni, dictLookup_node_to_vec hids hj]
    simp only [bind, Except.bind]
    rw [cosine_similarity_eq_ok (hdim _ _)]
    simp only [bind, Except.bind]
    rw [ih htl]
    simp only [bind, Except.bind, List.filterMap_cons]
    by_cases hth : threshold ≤ simVal sqrt (embed ni.label) (embed nj.label)
    · rw [if_pos hth, if_pos (by exact hth)]
      rfl
    · rw [if_neg hth, if_neg (by exact hth)]

theorem claimEdgesOuter_eq {embed : String → List ℚ} {sqrt : ℚ → ℚ}
    {nodes : List ClaimNode} (hids : nodes.Pairwise (fun a b => a.id ≠ b.id))
    (hdim : ∀ s t : String, (embed s).length = (embed t).length)
    (threshold : ℚ) :
    ∀ l : List ClaimNode, (∀ x ∈ l, x ∈ nodes) →
      claimEdgesOuter sqrt (node_to_vec embed nodes) threshold l =
        .ok (claimEdgesSpec embed sqrt threshold l) := by
  intro l
  induction l with
  | nil => intro _; rfl
  | cons n tl ih =>
    intro hsub
    have hn : n ∈ nodes := hsub n (List.mem_cons_self _ _)
    have htl : ∀ x ∈ tl, x ∈ nodes := fun x hx => hsub x (List.mem_cons_of_mem _ hx)
    unfold claimEdgesOuter
    rw [claimEdgesInner_eq hids hdim threshold hn tl htl, ih htl]
    rfl

theorem build_claim_edges_eq {embed : String → List ℚ} {sqrt : ℚ → ℚ}
    {nodes : List ClaimNode} (hids : nodes.Pairwise (fun a b => a.id ≠ b.id))
    (hdim : ∀ s t : String, (embed s).length = (embed t).length)
    (threshold : ℚ) :
    _build_claim_edges embed sqrt nodes threshold =
      .ok (claimEdgesSpec embed sqrt threshold nodes) :=
  claimEdgesOuter_eq hids hdim threshold nodes (fun _ hx => hx)

theorem claimEdgesSpec_mem {embed : String → List ℚ} {sqrt : ℚ → ℚ}
    {threshold : ℚ} :
    ∀ l : List ClaimNode, ∀ e ∈ claimEdgesSpec embed sqrt threshold l,
      ∃ l1 ni l2 nj l3, l = l1 ++ ni :: (l2 ++ nj :: l3) ∧
        e = mkSimilarEdge embed sqrt ni nj ∧
        threshold ≤ labelSim embed sqrt ni nj := by
  intro l
  induction l with
  | nil => simp [claimEdgesSpec]
  | cons n rest ih =>
    intro e he
    rcases List.mem_append.mp he with h1 | h1
    · obtain ⟨nj, hj, hsome⟩ := List.mem_filterMap.mp h1
      by_cases hth : threshold ≤ labelSim embed sqrt n nj
      · rw [if_pos hth] at hsome
        obtain ⟨l2, l3, hrest⟩ := List.append_of_mem hj
        exact ⟨[], n, l2, nj, l3, by simp [hrest], (Option.some_inj.mp hsome).symm, hth⟩
      · rw [if_neg hth] at hsome
        cases hsome
    · obtain ⟨l1, ni, l2, nj, l3, hrest, he', hth⟩ := ih e h1
      exact ⟨n :: l1, ni, l2, nj, l3, by simp [hrest], he', hth⟩

theorem claimEdgesSpec_complete {embed : String → List ℚ} {sqrt : ℚ → ℚ}
    {threshold : ℚ} :
    ∀ (l1 : List ClaimNode) (ni : ClaimNode) (l2 : List ClaimNode)
      (nj : ClaimNode) (l3 : List ClaimNode),
      threshold ≤ labelSim embed sqrt ni nj →
      mkSimilarEdge embed sqrt ni nj ∈
        claimEdgesSpec embed sqrt threshold (l1 ++ ni :: (l2 ++ nj :: l3)) := by
  intro l1
  induction l1 with
  | nil =>
    intro ni l2 nj l3 hth
    apply List.mem_append_left
    apply List.mem_filterMap.mpr
    exact ⟨nj, by simp, by rw [if_pos hth]⟩
  | cons m l1 ih =>
    intro ni l2 nj l3 hth
    exact List.mem_append_right _ (ih ni l2 nj l3 hth)

/-- C2: under distinct node ids and a fixed embedding dimension,
`_build_claim_edges` succeeds and its output contains a `similar_to`
edge for the ordered pair (i, j) with i < j exactly when the cosine
similarity of the two labels' embeddings reaches the threshold
(boundary included), and each edge's weight is exactly that
similarity. -/
theorem build_claim_edges_spec (embed : String → List ℚ) (sqrt : ℚ → ℚ)
    (nodes : List ClaimNode) (threshold : ℚ)
    (hids : nodes.Pairwise (fun a b => a.id ≠ b.id))
    (hdim : ∀ s t : String, (embed s).length = (embed t).length) :
    ∃ es, _build_claim_edges embed sqrt nodes threshold = .ok es ∧
      (∀ e ∈ es, ∃ l1 ni l2 nj l3, nodes = l1 ++ ni :: (l2 ++ nj :: l3) ∧
        e = { source := ni.id, target := nj.id, type := "similar_to",
              weight := labelSim embed sqrt ni nj } ∧
        cosine_similarity sqrt (embed ni.label) (embed nj.label) =
          .ok (labelSim embed sqrt ni nj) ∧
        threshold ≤ labelSim embed sqrt ni nj) ∧
      (∀ l1 ni l2 nj l3, nodes = l1 ++ ni :: (l2 ++ nj :: l3) →
        threshold ≤ labelSim embed sqrt ni nj →
        ({ source := ni.id, target := nj.id, type := "similar_to",
           weight := labelSim embed sqrt ni nj } : ClaimEdge) ∈ es) ∧
      (∀ l1 ni l2 nj l3, nodes = l1 ++ ni :: (l2 ++ nj :: l3) →
        labelSim embed sqrt ni nj < threshold →
        ∀ e ∈ es, ¬(e.source = ni.id ∧ e.target = nj.id)) := by
  refine ⟨claimEdgesSpec embed sqrt threshold nodes,
    build_claim_edges_eq hids hdim threshold, ?_, ?_, ?_⟩
  · intro e he
    obtain ⟨l1, ni, l2, nj, l3, hdec, he', hth⟩ :=
      claimEdgesSpec_mem nodes e he
    exact ⟨l1, ni, l2, nj, l3, hdec, he',
      cosine_similarity_eq_ok (hdim _ _), hth⟩
  · intro l1 ni l2 nj l3 hdec hth
    have := @claimEdgesSpec_complete embed sqrt threshold l1 ni l2 nj l3 hth
    rw [← hdec] at this
    exact this
  · intro l1 ni l2 nj l3 hdec hlt e he ⟨hsrc, htgt⟩
    obtain ⟨l1', ni', l2', nj', l3', hdec', he', hth'⟩ :=
      claimEdgesSpec_mem nodes e he
    have hni : ni ∈ nodes := by simp [hdec]
    have hnj : nj ∈ nodes := by simp [hdec]
    have hni' : ni' ∈ nodes := by simp [hdec']
    have hnj' : nj' ∈ nodes := by simp [hdec']
    have hesrc : e.source = ni'.id := by rw [he']; rfl
    have hetgt : e.target = nj'.id := by rw [he']; rfl
    have h1 : ni' = ni := mem_id_inj hids ni' hni' ni hni (hesrc ▸ hsrc)
    have h2 : nj' = nj := mem_id_inj hids nj' hnj' nj hnj (hetgt ▸ htgt)
    rw [h1, h2] at hth'
    exact absurd hth' (not_le.mpr hlt)

/-- Nodes for the C2 witness. -/
def cnA : ClaimNode :=
  { id := "claim-a", label := "x", status := "verified", sources := [],
    similarity := 1, hop := 1 }

/-- Nodes for the C2 witness. -/
def cnB : ClaimNode :=
  { id := "claim-b", label := "y", status := "verified", sources := [],
    similarity := 1, hop := 1 }

/-- C2 witness: at the boundary `similarity == threshold` (both 1 with a
constant embedder), the edge IS produced, with the similarity as its
weight. -/
theorem build_claim_edges_spec_witness :
    ∃ es, _build_claim_edges (fun _ => [1]) (fun q => q) [cnA, cnB] 1 = .ok es ∧
      ({ source := cnA.id, target := cnB.id, type := "similar_to",
         weight := labelSim (fun _ => [1]) (fun q => q) cnA cnB } : ClaimEdge) ∈ es := by
  obtain ⟨es, hok, _, hcomp, _⟩ :=
    build_claim_edges_spec (fun _ => [1]) (fun q => q) [cnA, cnB] 1
      (by simp [cnA, cnB]) (fun _ _ => rfl)
  refine ⟨es, hok, hcomp [] cnA [] cnB [] rfl ?_⟩
  simp [labelSim, simVal, naZip, nbZip, dotZip]

/-! ## C5: dangling derives_from edges -/

/-- C5: a concrete build in which `build_from_worldview` returns a
`derives_from` edge whose target is not among the returned nodes.  The
two derivative labels "Alpha" and "alpha" collide case-insensitively, so
the deduplicator drops the second node, but the root edge created for it
during the factory stage is never filtered. -/
theorem build_from_worldview_dangling_edge :
    ∃ nodes edges rid evs,
      build_from_worldview (.ok [["Alpha", "alpha"]]) (fun _ => [1]) (fun q => q)
        (fun _ => .error "boom") (fun _ _ => .ok []) "W" 3 40 (2 : ℚ) =
          .ok (nodes, edges, rid, evs) ∧
      ∃ e ∈ edges, e.type = "derives_from" ∧
        e.target ∉ nodes.map ClaimNode.id := by
  refine ⟨[{ id := "claim-0", label := "W", status := "verified", sources := [],
             similarity := 1, hop := 0 },
           { id := "claim-1", label := "Alpha", status := "failed", sources := [],
             similarity := 1, hop := 1 }],
          [{ source := "claim-0", target := "claim-1", type := "derives_from", weight := 1 },
           { source := "claim-0", target := "claim-2", type := "derives_from", weight := 1 }],
          "claim-0", ?_, ?_,
          ⟨{ source := "claim-0", target := "claim-2", type := "derives_from", weight := 1 },
           by simp, rfl, by decide⟩⟩
  · exact [Event.claim_generated
             { id := "claim-0", label := "W", status := "verified", sources := [],
               similarity := 1, hop := 0 },
           Event.claim_generated
             { id := "claim-1", label := "Alpha", status := "generated", sources := [],
               similarity := 1, hop := 1 },
           Event.claim_generated
             { id := "claim-2", label := "alpha", status := "generated", sources := [],
               similarity := 1, hop := 1 },
           Event.claim_verifying "claim-1" "Alpha",
           Event.claim_verified_error "claim-1" "boom",
           Event.claim_verifying "claim-2" "alpha",
           Event.claim_verified_error "claim-2" "boom"]
  · with_unfolding_all rfl

/-! ## C9: root node and final node-list shape -/

/-- C9: whenever `build_from_worldview` succeeds, the returned node list
is the root node — with `hop=0`, `status="verified"`, `similarity=1.0`
and empty sources, whatever the worldview — followed by exactly the
surviving nodes: the merged/deduplicated verified derivatives after the
market-attach stage. -/
theorem build_root_first (generate : Except String (List (List String)))
    (embed : String → List ℚ) (sqrt : ℚ → ℚ)
    (verify : String → Except String VerificationResult)
    (search : String → Nat → Except String (List Candidate))
    (worldview : String) (k max_claims : Nat) (threshold : ℚ)
    (nodes : List ClaimNode) (edges : List ClaimEdge) (rid : String)
    (evs : List Event)
    (hok : build_from_worldview generate embed sqrt verify search worldview k
      max_claims threshold = .ok (nodes, edges, rid, evs)) :
    ∃ root rest, nodes = root :: rest ∧
      root = { id := claimId 0, label := worldview, status := "verified",
               sources := [], similarity := 1, hop := 0 } ∧
      rid = root.id ∧ root.hop = 0 ∧ root.status = "verified" ∧
      root.similarity = 1 ∧ root.sources = [] ∧
      ∃ sets dnodes dedges cevs,
        generate = .ok sets ∧
        _create_derivative_nodes embed sqrt worldview sets.flatten root.id 1 =
          .ok (dnodes, dedges, cevs) ∧
        rest = (_attach_market_sources (kalshi_search_call search)
          (_merge_and_dedupe (_verify_claims_parallel verify dnodes).1
            max_claims)).1 := by
  unfold build_from_worldview _add_root_claim at hok
  cases hgen : generate with
  | error e =>
    rw [hgen] at hok
    cases hok
  | ok sets =>
    rw [hgen] at hok
    simp only [bind, Except.bind] at hok
    cases hcr : _create_derivative_nodes embed sqrt worldview sets.flatten
        (claimId 0) 1 with
    | error e =>
      rw [hcr] at hok
      cases hok
    | ok triple =>
      rw [hcr] at hok
      obtain ⟨dnodes, dedges, cevs⟩ := triple
      simp only [bind, Except.bind] at hok
      cases hbe : _build_claim_edges embed sqrt
          (_attach_market_sources (kalshi_search_call search)
            (_merge_and_dedupe (_verify_claims_parallel verify dnodes).1
              max_claims)).1 threshold with
      | error e =>
        rw [hbe] at hok
        cases hok
      | ok sim_edges =>
        rw [hbe] at hok
        simp only [Except.ok.injEq, Prod.mk.injEq] at hok
        obtain ⟨hn, _, hr, _⟩ := hok
        exact ⟨_, _, hn.symm, rfl, hr.symm, rfl, rfl, rfl, rfl,
          sets, dnodes, dedges, cevs, rfl, hcr, rfl⟩

/-- C9 witness: the structural theorem applied to a concrete successful
build (no derivative sets), discharging its success hypothesis. -/
theorem build_root_first_witness :
    ∃ root rest,
      ([{ id := "claim-0", label := "W", status := "verified", sources := [],
          similarity := 1, hop := 0 }] : List ClaimNode) = root :: rest ∧
      root.hop = 0 ∧ root.status = "verified" ∧ root.similarity = 1 ∧
      root.sources = [] := by
  obtain ⟨root, rest, h1, _, _, h4, h5, h6, h7, _⟩ :=
    build_root_first (.ok []) (fun _ => [1]) (fun q => q)
      (fun _ => .error "x") (fun _ _ => .ok []) "W" 3 40 1
      [{ id := "claim-0", label := "W", status := "verified", sources := [],
         similarity := 1, hop := 0 }] [] "claim-0"
      [Event.claim_generated
        { id := "claim-0", label := "W", status := "verified", sources := [],
          similarity := 1, hop := 0 }]
      (by with_unfolding_all rfl)
  exact ⟨root, rest, h1, h4, h5, h6, h7⟩

/-! ## C7: status state machine -/

/-- Position of a status along the forward order
generated → verifying → {verified | failed}. -/
def statusRank : String → Nat
  | "generated" => 0
  | "verifying" => 1
  | "verified" => 2
  | "failed" => 2
  | _ => 0

theorem createNodesLoop_status (embed : String → List ℚ) (sqrt : ℚ → ℚ)
    (wvec : List ℚ) (root_id : String) :
    ∀ (ds : List String) (counter : Nat) dn de evs,
      createNodesLoop embed sqrt wvec root_id ds counter = .ok (dn, de, evs) →
      ∀ n ∈ dn, n.status = "generated" := by
  intro ds
  induction ds with
  | nil =>
    intro counter dn de evs h n hn
    cases h
    cases hn
  | cons d tl ih =>
    intro counter dn de evs h n hn
    unfold createNodesLoop at h
    cases hcos : cosine_similarity sqrt wvec (embed d) with
    | error e => rw [hcos] at h; cases h
    | ok sim =>
      rw [hcos] at h
      simp only [bind, Except.bind] at h
      cases hrec : createNodesLoop embed sqrt wvec root_id tl (counter + 1) with
      | error e => rw [hrec] at h; cases h
      | ok triple =>
        rw [hrec] at h
        obtain ⟨ns, es, evs'⟩ := triple
        simp only [Except.ok.injEq, Prod.mk.injEq] at h
        obtain ⟨hdn, _, _⟩ := h
        subst hdn
        rcases List.mem_cons.mp hn with h1 | h1
        · rw [h1]
        · exact ih (counter + 1) ns es evs' hrec n h1

/-- C7: the factory initialises every derivative node at `"generated"`;
`verify_one` emits `claim_verifying` FIRST (before the collaborator's
outcome event) and ends in exactly one of `"verified"` (collaborator
succeeded) or `"failed"` (collaborator raised); the market-attach stage
never changes any node's status; and the status rank never decreases
across the pipeline order generated → verifying → {verified|failed} →
(attach). -/
theorem status_monotonic (embed : String → List ℚ) (sqrt : ℚ → ℚ)
    (verify : String → Except String VerificationResult)
    (searchInvoke : String → Except String (List Candidate))
    (worldview root_id : String) (derivatives : List String) (counter : Nat) :
    (∀ dn de evs,
      _create_derivative_nodes embed sqrt worldview derivatives root_id counter =
        .ok (dn, de, evs) → ∀ n ∈ dn, n.status = "generated") ∧
    (∀ node : ClaimNode,
      (∃ tail, (verify_one verify node).2 =
        Event.claim_verifying node.id node.label :: tail) ∧
      ((verify_one verify node).1.status = "verified" ↔
        ∃ v, verify node.label = .ok v) ∧
      ((verify_one verify node).1.status = "failed" ↔
        ∃ e, verify node.label = .error e) ∧
      ¬((verify_one verify node).1.status = "verified" ∧
        (verify_one verify node).1.status = "failed")) ∧
    (∀ node : ClaimNode,
      ((attach_one searchInvoke node).1).status = node.status) ∧
    (∀ node : ClaimNode, node.status = "generated" →
      statusRank node.status ≤ statusRank "verifying" ∧
      statusRank "verifying" ≤ statusRank ((verify_one verify node).1).status ∧
      statusRank ((verify_one verify node).1).status =
        statusRank ((attach_one searchInvoke ((verify_one verify node).1)).1).status) := by
  have hattach : ∀ node : ClaimNode,
      ((attach_one searchInvoke node).1).status = node.status := by
    intro node
    unfold attach_one
    cases searchInvoke node.label with
    | error e => rfl
    | ok cs => cases cs with
      | nil => rfl
      | cons top rest => rfl
  have hverify : ∀ node : ClaimNode,
      ((verify_one verify node).1.status = "verified" ∧
        ∃ v, verify node.label = .ok v) ∨
      ((verify_one verify node).1.status = "failed" ∧
        ∃ e, verify node.label = .error e) := by
    intro node
    cases hv : verify node.label with
    | ok v =>
      refine Or.inl ⟨?_, v, rfl⟩
      simp [verify_one, hv]
    | error e =>
      refine Or.inr ⟨?_, e, rfl⟩
      simp [verify_one, hv]
  refine ⟨?_, ?_, hattach, ?_⟩
  · intro dn de evs h
    exact createNodesLoop_status embed sqrt (embed worldview) root_id
      derivatives counter dn de evs h
  · intro node
    refine ⟨?_, ?_, ?_, ?_⟩
    · cases hv : verify node.label with
      | ok v =>
        exact ⟨[Event.claim_verified_result node.id v], by simp [verify_one, hv]⟩
      | error e =>
        exact ⟨[Event.claim_verified_error node.id e], by simp [verify_one, hv]⟩
    · constructor
      · intro hs
        rcases hverify node with ⟨_, hv⟩ | ⟨hs', _⟩
        · exact hv
        · rw [hs] at hs'; exact absurd hs' (by decide)
      · intro ⟨v, hv⟩
        simp [verify_one, hv]
    · constructor
      · intro hs
        rcases hverify node with ⟨hs', _⟩ | ⟨_, hv⟩
        · rw [hs] at hs'; exact absurd hs' (by decide)
        · exact hv
      · intro ⟨e, hv⟩
        simp [verify_one, hv]
    · intro ⟨h1, h2⟩
      rw [h1] at h2
      exact absurd h2 (by decide)
  · intro node hgen
    refine ⟨by rw [hgen]; decide, ?_, ?_⟩
    · rcases hverify node with ⟨hs, _⟩ | ⟨hs, _⟩ <;> rw [hs] <;> decide
    · rw [hattach ((verify_one verify node).1)]

/-- A concrete freshly generated node used by the C7 witness. -/
def genNode : ClaimNode :=
  { id := "claim-1", label := "L", status := "generated", sources := [],
    similarity := 1, hop := 1 }

/-- C7 witness: a failing collaborator at a concrete generated node —
the node ends `failed`, the attach stage leaves the status untouched,
and the rank never decreases. -/
theorem status_monotonic_witness :
    ((verify_one (fun _ => .error "boom") genNode).1.status = "failed") ∧
    ((attach_one (kalshi_search_call (fun _ _ => .ok [])) genNode).1.status =
      "generated") ∧
    (statusRank "verifying" ≤ statusRank
      ((verify_one (fun _ => .error "boom") genNode).1.status)) := by
  obtain ⟨_, hb, hc, hd⟩ := status_monotonic (fun _ => [1]) (fun q => q)
    (fun _ => .error "boom") (kalshi_search_call (fun _ _ => .ok []))
    "W" "claim-0" [] 1
  refine ⟨?_, ?_, ?_⟩
  · exact ((hb genNode).2.2.1).mpr ⟨"boom", rfl⟩
  · exact hc genNode
  · exact (hd genNode rfl).2.1

/-! ## C4: verification failures are local; the build still completes -/

theorem lookup_some_of_key :
    ∀ (m : List (String × List ℚ)) (key : String),
      (∃ p ∈ m, p.1 = key) → ∃ v, m.lookup key = some v := by
  intro m
  induction m with
  | nil => intro key h; obtain ⟨p, hp, _⟩ := h; cases hp
  | cons q tl ih =>
    intro key h
    by_cases hk : key == q.1
    · exact ⟨q.2, by simp [List.lookup, hk]⟩
    · obtain ⟨p, hp, hpk⟩ := h
      rcases List.mem_cons.mp hp with h1 | h1
      · subst h1
        exact absurd (by simp [hpk]) hk
      · obtain ⟨v, hv⟩ := ih key ⟨p, h1, hpk⟩
        exact ⟨v, by simp [List.lookup, hk, hv]⟩

theorem lookup_val_mem :
    ∀ (m : List (String × List ℚ)) (key : String) (v : List ℚ),
      m.lookup key = some v → ∃ p ∈ m, p.2 = v := by
  intro m
  induction m with
  | nil => intro key v h; cases h
  | cons q tl ih =>
    intro key v h
    by_cases hk : key == q.1
    · simp [List.lookup, hk] at h
      exact ⟨q, List.mem_cons_self _ _, h⟩
    · simp [List.lookup, hk] at h
      obtain ⟨p, hp, hpv⟩ := ih key v h
      exact ⟨p, List.mem_cons_of_mem _ hp, hpv⟩

theorem dictLookup_embed {embed : String → List ℚ} {nodes : List ClaimNode}
    {n : ClaimNode} (hn : n ∈ nodes) :
    ∃ s, dictLookup (node_to_vec embed nodes) n.id = .ok (embed s) := by
  have hkey : ∃ p ∈ (node_to_vec embed nodes).reverse, p.1 = n.id := by
    refine ⟨(n.id, embed n.label), ?_, rfl⟩
    rw [List.mem_reverse]
    exact List.mem_map.mpr ⟨n, hn, rfl⟩
  obtain ⟨v, hv⟩ := lookup_some_of_key _ _ hkey
  obtain ⟨p, hp, hpv⟩ := lookup_val_mem _ _ _ hv
  rw [List.mem_reverse] at hp
  obtain ⟨x, _, hx⟩ := List.mem_map.mp hp
  refine ⟨x.label, ?_⟩
  rw [dictLookup, hv, ← hpv, ← hx]

theorem claimEdgesInner_ok {embed : String → List ℚ} {sqrt : ℚ → ℚ}
    {nodes : List ClaimNode}
    (hdim : ∀ s t : String, (embed s).length = (embed t).length)
    (threshold : ℚ) {ni : ClaimNode} (hni : ni ∈ nodes) :
    ∀ rest : List ClaimNode, (∀ x ∈ rest, x ∈ nodes) →
      ∃ es, claimEdgesInner sqrt (node_to_vec embed nodes) threshold ni rest =
        .ok es := by
  intro rest
  induction rest with
  | nil => intro _; exact ⟨[], rfl⟩
  | cons nj tl ih =>
    intro hsub
    obtain ⟨si, hsi⟩ := @dictLookup_embed embed nodes ni hni
    obtain ⟨sj, hsj⟩ := @dictLookup_embed embed nodes nj
      (hsub nj (List.mem_cons_self _ _))
    obtain ⟨es, hes⟩ := ih (fun x hx => hsub x (List.mem_cons_of_mem _ hx))
    unfold claimEdgesInner
    rw [hsi, hsj]
    simp only [bind, Except.bind]
    rw [cosine_similarity_eq_ok (hdim _ _), hes]
    by_cases hth : threshold ≤ simVal sqrt (embed si) (embed sj)
    · exact ⟨{ source := ni.id, target := nj.id, type := "similar_to",
               weight := simVal sqrt (embed si) (embed sj) } :: es,
             by simp [hth]⟩
    · exact ⟨es, by simp [hth]⟩

theorem claimEdgesOuter_ok {embed : String → List ℚ} {sqrt : ℚ → ℚ}
    {nodes : List ClaimNode}
    (hdim : ∀ s t : String, (embed s).length = (embed t).length)
    (threshold : ℚ) :
    ∀ l : List ClaimNode, (∀ x ∈ l, x ∈ nodes) →
      ∃ es, claimEdgesOuter sqrt (node_to_vec embed nodes) threshold l =
        .ok es := by
  intro l
  induction l with
  | nil => intro _; exact ⟨[], rfl⟩
  | cons n tl ih =>
    intro hsub
    obtain ⟨es1, hes1⟩ := claimEdgesInner_ok hdim threshold
      (hsub n (List.mem_cons_self _ _)) tl
      (fun x hx => hsub x (List.mem_cons_of_mem _ hx))
    obtain ⟨es2, hes2⟩ := ih (fun x hx => hsub x (List.mem_cons_of_mem _ hx))
    unfold claimEdgesOuter
    rw [hes1]
    simp only [bind, Except.bind]
    rw [hes2]
    exact ⟨_, rfl⟩

theorem build_claim_edges_ok {embed : String → List ℚ} {sqrt : ℚ → ℚ}
    (hdim : ∀ s t : String, (embed s).length = (embed t).length)
    (nodes : List ClaimNode) (threshold : ℚ) :
    ∃ es, _build_claim_edges embed sqrt nodes threshold = .ok es :=
  claimEdgesOuter_ok hdim threshold nodes (fun _ hx => hx)

theorem createNodesLoop_ok {embed : String → List ℚ} {sqrt : ℚ → ℚ}
    {worldview : String}
    (hdim : ∀ s t : String, (embed s).length = (embed t).length)
    (root_id : String) :
    ∀ (ds : List String) (counter : Nat),
      ∃ out, createNodesLoop embed sqrt (embed worldview) root_id ds counter =
        .ok out := by
  intro ds
  induction ds with
  | nil => intro counter; exact ⟨([], [], []), rfl⟩
  | cons d tl ih =>
    intro counter
    obtain ⟨⟨ns, es, evs⟩, hrec⟩ := ih (counter + 1)
    unfold createNodesLoop
    rw [cosine_similarity_eq_ok (hdim worldview d)]
    simp only [bind, Except.bind]
    rw [hrec]
    exact ⟨_, rfl⟩

theorem build_from_worldview_ok {embed : String → List ℚ} {sqrt : ℚ → ℚ}
    (hdim : ∀ s t : String, (embed s).length = (embed t).length)
    (verify : String → Except String VerificationResult)
    (search : String → Nat → Except String (List Candidate))
    (worldview : String) (k max_claims : Nat) (threshold : ℚ)
    (sets : List (List String)) :
    ∃ nodes edges rid evs,
      build_from_worldview (.ok sets) embed sqrt verify search worldview k
        max_claims threshold = .ok (nodes, edges, rid, evs) := by
  obtain ⟨⟨dn, de, ce⟩, hcr⟩ :=
    @createNodesLoop_ok embed sqrt worldview hdim
      (claimId 0) sets.flatten 1
  obtain ⟨se, hse⟩ := @build_claim_edges_ok embed sqrt hdim
    (_attach_market_sources (kalshi_search_call search)
      (_merge_and_dedupe (_verify_claims_parallel verify dn).1 max_claims)).1
    threshold
  refine ⟨{ id := claimId 0, label := worldview, status := "verified",
            sources := [], similarity := 1, hop := 0 } ::
            (_attach_market_sources (kalshi_search_call search)
              (_merge_and_dedupe (_verify_claims_parallel verify dn).1
                max_claims)).1,
          de ++ se, claimId 0,
          Event.claim_generated
            { id := claimId 0, label := worldview, status := "verified",
              sources := [], similarity := 1, hop := 0 } ::
            (ce ++ (_verify_claims_parallel verify dn).2 ++
              (_attach_market_sources (kalshi_search_call search)
                (_merge_and_dedupe (_verify_claims_parallel verify dn).1
                  max_claims)).2), ?_⟩
  unfold build_from_worldview _add_root_claim _create_derivative_nodes
  simp only [bind, Except.bind]
  rw [hcr]
  simp only [bind, Except.bind]
  rw [hse]

/-- C4: an exception from the verification collaborator marks exactly
that node `failed` and emits `claim_verified` with the error payload;
the stage still processes every node (each reaching `verified` or
`failed`); and — whatever the per-node verification outcomes — the build
completes and the stream ends with `graph_complete`. -/
theorem verify_failure_isolated (embed : String → List ℚ) (sqrt : ℚ → ℚ)
    (verify : String → Except String VerificationResult)
    (search : String → Nat → Except String (List Candidate))
    (worldview : String) (k max_claims : Nat) (threshold : ℚ)
    (sets : List (List String)) :
    (∀ (node : ClaimNode) (e : String), verify node.label = .error e →
      (verify_one verify node).1.status = "failed" ∧
      Event.claim_verified_error node.id e ∈ (verify_one verify node).2) ∧
    (∀ ns : List ClaimNode,
      ((_verify_claims_parallel verify ns).1).length = ns.length ∧
      ∀ n' ∈ (_verify_claims_parallel verify ns).1,
        n'.status = "verified" ∨ n'.status = "failed") ∧
    ((∀ s t : String, (embed s).length = (embed t).length) →
      ∃ nodes edges rid evs,
        build_from_worldview (.ok sets) embed sqrt verify search worldview k
          max_claims threshold = .ok (nodes, edges, rid, evs) ∧
        graph_stream_events (.ok sets) embed sqrt verify search worldview k
          max_claims threshold = evs ++ [Event.graph_complete nodes edges rid]) := by
  have hone : ∀ node : ClaimNode,
      (verify_one verify node).1.status = "verified" ∨
      (verify_one verify node).1.status = "failed" := by
    intro node
    cases hv : verify node.label with
    | ok v => exact Or.inl (by simp [verify_one, hv])
    | error e => exact Or.inr (by simp [verify_one, hv])
  refine ⟨?_, ?_, ?_⟩
  · intro node e hv
    constructor
    · simp [verify_one, hv]
    · simp [verify_one, hv]
  · intro ns
    induction ns with
    | nil => exact ⟨rfl, by simp [_verify_claims_parallel]⟩
    | cons n tl ih =>
      constructor
      · simp only [_verify_claims_parallel, List.length_cons]
        rw [ih.1]
      · intro n' hn'
        simp only [_verify_claims_parallel] at hn'
        rcases List.mem_cons.mp hn' with h1 | h1
        · rw [h1]; exact hone n
        · exact ih.2 n' h1
  · intro hdim
    obtain ⟨nodes, edges, rid, evs, hok⟩ :=
      build_from_worldview_ok hdim verify search worldview k max_claims
        threshold sets
    exact ⟨nodes, edges, rid, evs, hok, by rw [graph_stream_events, hok]⟩

/-- The failing node of the C4 witness. -/
def genNode2 : ClaimNode :=
  { id := "claim-2", label := "B claim", status := "generated", sources := [],
    similarity := 1, hop := 1 }

/-- C4 witness: three derivative claims, the middle one's verification
throws — it ends `failed` with an error-payload event, and the concrete
build still completes, ending the stream with `graph_complete`. -/
theorem verify_failure_isolated_witness :
    ((verify_one
        (fun s => if s = "B claim" then .error "boom"
                  else .ok { confidence := 1, rationale := "r", exa_results := [] })
        genNode2).1.status = "failed" ∧
      Event.claim_verified_error genNode2.id "boom" ∈
        (verify_one
          (fun s => if s = "B claim" then .error "boom"
                    else .ok { confidence := 1, rationale := "r", exa_results := [] })
          genNode2).2) ∧
    (∃ nodes edges rid evs,
      build_from_worldview (.ok [["A claim", "B claim", "C claim"]])
        (fun _ => [1]) (fun q => q)
        (fun s => if s = "B claim" then .error "boom"
                  else .ok { confidence := 1, rationale := "r", exa_results := [] })
        (fun _ _ => .ok []) "W" 3 40 1 = .ok (nodes, edges, rid, evs) ∧
      graph_stream_events (.ok [["A claim", "B claim", "C claim"]])
        (fun _ => [1]) (fun q => q)
        (fun s => if s = "B claim" then .error "boom"
                  else .ok { confidence := 1, rationale := "r", exa_results := [] })
        (fun _ _ => .ok []) "W" 3 40 1 =
          evs ++ [Event.graph_complete nodes edges rid]) := by
  obtain ⟨hi, _, hiii⟩ := verify_failure_isolated (fun _ => [1]) (fun q => q)
    (fun s => if s = "B claim" then .error "boom"
              else .ok { confidence := 1, rationale := "r", exa_results := [] })
    (fun _ _ => .ok []) "W" 3 40 1 [["A claim", "B claim", "C claim"]]
  exact ⟨hi genNode2 "boom" (by with_unfolding_all rfl), hiii (fun _ _ => rfl)⟩

/-! ## C6: the BFS builder fails exactly on an empty valid-node set -/

theorem dictLookup_ok_of {embed : String → List ℚ} {m : List (String × List ℚ)}
    (hvals : ∀ p ∈ m, ∃ s, p.2 = embed s) {key : String}
    (hkey : ∃ p ∈ m, p.1 = key) :
    ∃ s, dictLookup m key = .ok (embed s) := by
  obtain ⟨v, hv⟩ := lookup_some_of_key m.reverse key
    (by obtain ⟨p, hp, hpk⟩ := hkey; exact ⟨p, List.mem_reverse.mpr hp, hpk⟩)
  obtain ⟨p, hp, hpv⟩ := lookup_val_mem _ _ _ hv
  obtain ⟨s, hs⟩ := hvals p (List.mem_reverse.mp hp)
  refine ⟨s, ?_⟩
  rw [dictLookup, hv, ← hpv, hs]

theorem graphEdgesInner_ok {embed : String → List ℚ} {sqrt : ℚ → ℚ}
    {m : List (String × List ℚ)}
    (hdim : ∀ s t : String, (embed s).length = (embed t).length)
    (hvals : ∀ p ∈ m, ∃ s, p.2 = embed s) (threshold : ℚ) {idi : String}
    (hki : ∃ p ∈ m, p.1 = idi) :
    ∀ l : List String, (∀ x ∈ l, ∃ p ∈ m, p.1 = x) →
      ∃ es, graphEdgesInner sqrt m threshold idi l = .ok es := by
  intro l
  induction l with
  | nil => intro _; exact ⟨[], rfl⟩
  | cons idj tl ih =>
    intro hsub
    obtain ⟨si, hsi⟩ := dictLookup_ok_of hvals hki
    obtain ⟨sj, hsj⟩ := dictLookup_ok_of hvals (hsub idj (List.mem_cons_self _ _))
    obtain ⟨es, hes⟩ := ih (fun x hx => hsub x (List.mem_cons_of_mem _ hx))
    unfold graphEdgesInner
    rw [hsi, hsj]
    simp only [bind, Except.bind]
    rw [cosine_similarity_eq_ok (hdim _ _), hes]
    by_cases hth : threshold ≤ simVal sqrt (embed si) (embed sj)
    · exact ⟨{ source := idi, target := idj,
               weight := simVal sqrt (embed si) (embed sj) } :: es,
             by simp [hth]⟩
    · exact ⟨es, by simp [hth]⟩

theorem graphEdgesOuter_ok {embed : String → List ℚ} {sqrt : ℚ → ℚ}
    {m : List (String × List ℚ)}
    (hdim : ∀ s t : String, (embed s).length = (embed t).length)
    (hvals : ∀ p ∈ m, ∃ s, p.2 = embed s) (threshold : ℚ) :
    ∀ l : List String, (∀ x ∈ l, ∃ p ∈ m, p.1 = x) →
      ∃ es, graphEdgesOuter sqrt m threshold l = .ok es := by
  intro l
  induction l with
  | nil => intro _; exact ⟨[], rfl⟩
  | cons idi tl ih =>
    intro hsub
    obtain ⟨es1, hes1⟩ := graphEdgesInner_ok hdim hvals threshold
      (hsub idi (List.mem_cons_self _ _)) tl
      (fun x hx => hsub x (List.mem_cons_of_mem _ hx))
    obtain ⟨es2, hes2⟩ := ih (fun x hx => hsub x (List.mem_cons_of_mem _ hx))
    unfold graphEdgesOuter
    rw [hes1]
    simp only [bind, Except.bind]
    rw [hes2]
    exact ⟨es1 ++ es2, rfl⟩

theorem id_to_vec_vals {embed : String → List ℚ} {candidates : List Candidate} :
    ∀ p ∈ id_to_vec embed candidates, ∃ s, p.2 = embed s := by
  intro p hp
  obtain ⟨c, _, hc⟩ := List.mem_map.mp hp
  exact ⟨candidateText c, by rw [← hc]⟩

theorem graphNodesLoop_ok {embed : String → List ℚ} {sqrt : ℚ → ℚ}
    {worldview : String} {candidates : List Candidate}
    (hdim : ∀ s t : String, (embed s).length = (embed t).length) :
    ∀ cs : List Candidate, (∀ c ∈ cs, c ∈ candidates) →
      ∃ ns, graphNodesLoop sqrt (embed worldview) (id_to_vec embed candidates)
          cs = .ok ns ∧
        ns.length = cs.length ∧
        (∀ n ∈ ns, ∃ c ∈ cs, n.id = c.id) := by
  intro cs
  induction cs with
  | nil => intro _; exact ⟨[], rfl, rfl, by simp⟩
  | cons c tl ih =>
    intro hsub
    obtain ⟨ns, hns, hlen, hids⟩ := ih (fun x hx => hsub x (List.mem_cons_of_mem _ hx))
    have hget : ∃ s, dictGet (id_to_vec embed candidates) c.id = some (embed s) := by
      have hkey : ∃ p ∈ (id_to_vec embed candidates).reverse, p.1 = c.id := by
        refine ⟨(c.id, embed (candidateText c)), ?_, rfl⟩
        rw [List.mem_reverse]
        exact List.mem_map.mpr ⟨c, hsub c (List.mem_cons_self _ _), rfl⟩
      obtain ⟨v, hv⟩ := lookup_some_of_key _ _ hkey
      obtain ⟨p, hp, hpv⟩ := lookup_val_mem _ _ _ hv
      obtain ⟨s, hs⟩ := id_to_vec_vals p (List.mem_reverse.mp hp)
      exact ⟨s, by rw [dictGet, hv, ← hpv, hs]⟩
    obtain ⟨s, hs⟩ := hget
    refine ⟨{ id := c.id, label := c.title, url := c.url, type := c.type,
              similarity := simVal sqrt (embed worldview) (embed s),
              hop := -1 } :: ns, ?_, by simp [hlen], ?_⟩
    · unfold graphNodesLoop
      rw [hs]
      simp only [bind, Except.bind]
      rw [cosine_similarity_eq_ok (hdim _ _), hns]
    · intro n hn
      rcases List.mem_cons.mp hn with h1 | h1
      · exact ⟨c, List.mem_cons_self _ _, by rw [h1]⟩
      · obtain ⟨c', hc', hcid⟩ := hids n h1
        exact ⟨c', List.mem_cons_of_mem _ hc', hcid⟩

/-- C6: `build_graph` raises its fatal `ValueError` exactly when the
candidate list yields zero valid nodes — in particular on the empty
candidate list — and with at least one candidate (and a fixed embedding
dimension) no structural failure occurs: a graph is returned. -/
theorem build_graph_empty_fatal (embed : String → List ℚ) (sqrt : ℚ → ℚ)
    (worldview : String) (k : Nat) (max_hops : Int) (threshold : ℚ) :
    (build_graph embed sqrt worldview k max_hops threshold [] =
      .error "No valid nodes found from Kalshi results") ∧
    (∀ candidates : List Candidate, candidates ≠ [] →
      (∀ s t : String, (embed s).length = (embed t).length) →
      ∃ ns es cid, build_graph embed sqrt worldview k max_hops threshold
        candidates = .ok (ns, es, cid)) := by
  constructor
  · rfl
  · intro candidates hne hdim
    obtain ⟨ns, hns, hlen, hids⟩ :=
      @graphNodesLoop_ok embed sqrt worldview candidates hdim candidates
        (fun _ hx => hx)
    cases hcs : ns with
    | nil =>
      rw [hcs] at hlen
      exact absurd (List.length_eq_zero.mp hlen.symm) hne
    | cons n0 rest =>
      rw [hcs] at hns hids
      have hkeys : ∀ x ∈ (n0 :: rest).map (fun n => n.id),
          ∃ p ∈ id_to_vec embed candidates, p.1 = x := by
        intro x hx
        obtain ⟨n, hn, hnx⟩ := List.mem_map.mp hx
        obtain ⟨c, hc, hcid⟩ := hids n hn
        exact ⟨(c.id, embed (candidateText c)),
          List.mem_map.mpr ⟨c, hc, rfl⟩, by rw [← hnx, hcid]⟩
      obtain ⟨es, hes⟩ := @graphEdgesOuter_ok embed sqrt
        (id_to_vec embed candidates) hdim
        (@id_to_vec_vals embed candidates) threshold
        ((n0 :: rest).map (fun n => n.id)) hkeys
      refine ⟨filterNodes
          (bfsHopMap es (pickCore n0 rest).id ((n0 :: rest).length + 1))
          max_hops (n0 :: rest),
        filterEdges es ((filterNodes
          (bfsHopMap es (pickCore n0 rest).id ((n0 :: rest).length + 1))
          max_hops (n0 :: rest)).map (fun n => n.id)),
        (pickCore n0 rest).id, ?_⟩
      simp only [build_graph, bind, Except.bind, hns, hes]

/-- C6 witness: the empty-input half at concrete parameters, and the
success half at a one-candidate input. -/
theorem build_graph_empty_fatal_witness :
    (build_graph (fun _ => [1]) (fun q => q) "W" 3 3 1 [] =
      .error "No valid nodes found from Kalshi results") ∧
    (∃ ns es cid, build_graph (fun _ => [1]) (fun q => q) "W" 3 3 1
      [{ id := "m1", type := "market", title := "T", description := none,
         url := none }] = .ok (ns, es, cid)) := by
  refine ⟨(build_graph_empty_fatal (fun _ => [1]) (fun q => q) "W" 3 3 1).1, ?_⟩
  exact (build_graph_empty_fatal (fun _ => [1]) (fun q => q) "W" 3 3 1).2
    [{ id := "m1", type := "market", title := "T", description := none,
       url := none }] (by simp) (fun _ _ => rfl)

/-! ## C3: the BFS builder -/

/-- Some edge of `es` joins `a` and `b` (in either direction). -/
def edgeTouch (es : List GraphEdge) (a b : String) : Prop :=
  ∃ e ∈ es, (e.source = a ∧ e.target = b) ∨ (e.source = b ∧ e.target = a)

theorem edgeTouch_symm {es : List GraphEdge} {a b : String}
    (h : edgeTouch es a b) : edgeTouch es b a := by
  obtain ⟨e, he, h1 | h1⟩ := h
  · exact ⟨e, he, Or.inr h1⟩
  · exact ⟨e, he, Or.inl h1⟩

theorem adjOf_mem {es : List GraphEdge} {a b : String} :
    a ∈ adjOf es b ↔ edgeTouch es b a := by
  unfold adjOf edgeTouch
  rw [List.mem_flatMap]
  constructor
  · rintro ⟨e, he, hmem⟩
    rcases List.mem_append.mp hmem with h | h
    · by_cases hs : e.source = b
      · rw [if_pos hs] at h
        exact ⟨e, he, Or.inl ⟨hs, (List.mem_singleton.mp h).symm⟩⟩
      · rw [if_neg hs] at h
        cases h
    · by_cases ht : e.target = b
      · rw [if_pos ht] at h
        exact ⟨e, he, Or.inr ⟨(List.mem_singleton.mp h).symm, ht⟩⟩
      · rw [if_neg ht] at h
        cases h
  · rintro ⟨e, he, ⟨hs, ht⟩ | ⟨hs, ht⟩⟩
    · refine ⟨e, he, List.mem_append.mpr (Or.inl ?_)⟩
      rw [if_pos hs]
      exact List.mem_singleton.mpr ht.symm
    · refine ⟨e, he, List.mem_append.mpr (Or.inr ?_)⟩
      rw [if_pos ht]
      exact List.mem_singleton.mpr hs.symm

theorem adjOf_symm {es : List GraphEdge} {a b : String}
    (h : a ∈ adjOf es b) : b ∈ adjOf es a :=
  adjOf_mem.mpr (edgeTouch_symm (adjOf_mem.mp h))

/-- The BFS loop invariant on the hop map: values are at least the `-1`
sentinel; the core holds `0` and is the only id holding `0`; every id at
hop `h ≥ 1` has a neighbour at `h - 1`; every assigned id is reachable
from the core through the adjacency. -/
structure BfsInv (adj : String → List String) (core : String)
    (hm : String → Int) : Prop where
  lb : ∀ x, -1 ≤ hm x
  core_zero : hm core = 0
  zero_core : ∀ x, hm x = 0 → x = core
  parent : ∀ x, 1 ≤ hm x → ∃ y ∈ adj x, hm y = hm x - 1
  reach : ∀ x, 0 ≤ hm x →
    Relation.ReflTransGen (fun a b => b ∈ adj a) core x

/-- `max(nodes, key=...)` keeps the first element attaining the maximum:
the result splits the list into a strictly-smaller prefix, the result,
and a suffix, with everything `≤` the result. -/
theorem pickCore_spec :
    ∀ (rest : List GraphNode) (n0 : GraphNode),
      ∃ l1 l2, n0 :: rest = l1 ++ pickCore n0 rest :: l2 ∧
        (∀ m ∈ l1, m.similarity < (pickCore n0 rest).similarity) ∧
        (∀ m ∈ n0 :: rest, m.similarity ≤ (pickCore n0 rest).similarity) := by
  intro rest
  induction rest with
  | nil =>
    intro n0
    exact ⟨[], [], rfl, by simp, by simp [pickCore]⟩
  | cons x xs ih =>
    intro n0
    have hstep : pickCore n0 (x :: xs) =
        pickCore (if n0.similarity < x.similarity then x else n0) xs := by
      unfold pickCore
      rw [List.foldl_cons]
    by_cases hc : n0.similarity < x.similarity
    · rw [if_pos hc] at hstep
      obtain ⟨l1, l2, hdec, hlt, hle⟩ := ih x
      rw [hstep]
      refine ⟨n0 :: l1, l2, by rw [List.cons_append, ← hdec], ?_, ?_⟩
      · intro m hm
        rcases List.mem_cons.mp hm with h1 | h1
        · subst h1
          exact lt_of_lt_of_le hc (hle x (List.mem_cons_self _ _))
        · exact hlt m h1
      · intro m hm
        rcases List.mem_cons.mp hm with h1 | h1
        · subst h1
          exact le_of_lt (lt_of_lt_of_le hc (hle x (List.mem_cons_self _ _)))
        · exact hle m h1
    · rw [if_neg hc] at hstep
      obtain ⟨l1, l2, hdec, hlt, hle⟩ := ih n0
      rw [hstep]
      cases l1 with
      | nil =>
        simp only [List.nil_append] at hdec
        have hr : pickCore n0 xs = n0 := by
          have := hdec
          rw [List.cons.injEq] at this
          exact this.1.symm
        have hl2 : l2 = xs := by
          rw [List.cons.injEq] at hdec
          exact hdec.2.symm
        refine ⟨[], x :: xs, by simp [hr], by simp, ?_⟩
        intro m hm
        rcases List.mem_cons.mp hm with h1 | h1
        · subst h1
          exact le_of_eq (by rw [hr])
        · rcases List.mem_cons.mp h1 with h2 | h2
          · subst h2
            rw [hr]
            exact le_of_not_lt hc
          · exact hle m (List.mem_cons_of_mem _ h2)
      | cons a t =>
        rw [List.cons_append, List.cons.injEq] at hdec
        obtain ⟨han0, hxs⟩ := hdec
        refine ⟨n0 :: x :: t, l2, ?_, ?_, ?_⟩
        · rw [List.cons_append, List.cons_append, ← hxs]
        · intro m hm
          have hn0lt : n0.similarity < (pickCore n0 xs).similarity := by
            have := hlt a (List.mem_cons_self _ _)
            rw [← han0] at this
            exact this
          rcases List.mem_cons.mp hm with h1 | h1
          · subst h1
            exact hn0lt
          · rcases List.mem_cons.mp h1 with h2 | h2
            · subst h2
              exact lt_of_le_of_lt (le_of_not_lt hc) hn0lt
            · exact hlt m (List.mem_cons_of_mem _ h2)
        · intro m hm
          rcases List.mem_cons.mp hm with h1 | h1
          · rw [h1]
            exact hle n0 (List.mem_cons_self _ _)
          · rcases List.mem_cons.mp h1 with h2 | h2
            · rw [h2]
              exact le_trans (le_of_not_lt hc) (hle n0 (List.mem_cons_self _ _))
            · exact hle m (List.mem_cons_of_mem _ (hxs ▸ h2))

theorem bfsFold_inv {adj : String → List String}
    (hsymm : ∀ a b : String, a ∈ adj b → b ∈ adj a) {core cur : String} :
    ∀ l : List String, (∀ x ∈ l, x ∈ adj cur) →
      ∀ (hm : String → Int) (q : List String),
        BfsInv adj core hm → 0 ≤ hm cur → (∀ x ∈ q, 0 ≤ hm x) →
        BfsInv adj core (l.foldl (bfsVisit cur) (hm, q)).1 ∧
        (∀ x, 0 ≤ hm x → (l.foldl (bfsVisit cur) (hm, q)).1 x = hm x) ∧
        (∀ x ∈ (l.foldl (bfsVisit cur) (hm, q)).2,
          0 ≤ (l.foldl (bfsVisit cur) (hm, q)).1 x) := by
  intro l
  induction l with
  | nil =>
    intro _ hm q inv _ hq
    exact ⟨inv, fun x _ => rfl, hq⟩
  | cons nxt tl ih =>
    intro hl hm q inv hcur hq
    rw [List.foldl_cons]
    by_cases hn : hm nxt = -1
    · have hp1 : bfsVisit cur (hm, q) nxt =
          ((fun x => if x = nxt then hm cur + 1 else hm x), q ++ [nxt]) := by
        simp [bfsVisit, hn]
      rw [hp1]
      have hcur_ne : cur ≠ nxt := by
        intro h
        rw [h, hn] at hcur
        exact absurd hcur (by norm_num)
      have hcore_ne : core ≠ nxt := by
        intro h
        have h0 := inv.core_zero
        rw [h, hn] at h0
        exact absurd h0 (by norm_num)
      have hmono : ∀ x, 0 ≤ hm x →
          (fun x => if x = nxt then hm cur + 1 else hm x) x = hm x := by
        intro x hx
        have hx_ne : x ≠ nxt := by
          intro h
          rw [h, hn] at hx
          exact absurd hx (by norm_num)
        simp only [if_neg hx_ne]
      have inv' : BfsInv adj core
          (fun x => if x = nxt then hm cur + 1 else hm x) := by
        refine ⟨?_, ?_, ?_, ?_, ?_⟩
        · intro x
          by_cases hx : x = nxt
          · simp only [if_pos hx]
            omega
          · simp only [if_neg hx]
            exact inv.lb x
        · simp only [if_neg hcore_ne]
          exact inv.core_zero
        · intro x hx
          simp only [] at hx
          by_cases hxe : x = nxt
          · rw [if_pos hxe] at hx
            omega
          · rw [if_neg hxe] at hx
            exact inv.zero_core x hx
        · intro x hx
          simp only [] at hx
          by_cases hxe : x = nxt
          · subst hxe
            refine ⟨cur, hsymm x cur (hl x (List.mem_cons_self _ _)), ?_⟩
            have h2 : cur ≠ x := hcur_ne
            simp only [if_neg h2, if_pos]
            omega
          · rw [if_neg hxe] at hx
            obtain ⟨y, hy, hyv⟩ := inv.parent x hx
            have hy_ne : y ≠ nxt := by
              intro h
              rw [h, hn] at hyv
              omega
            refine ⟨y, hy, ?_⟩
            simp only [if_neg hy_ne, if_neg hxe]
            exact hyv
        · intro x hx
          simp only [] at hx
          by_cases hxe : x = nxt
          · subst hxe
            exact Relation.ReflTransGen.tail (inv.reach cur hcur)
              (hl x (List.mem_cons_self _ _))
          · rw [if_neg hxe] at hx
            exact inv.reach x hx
      have hcur' : 0 ≤ (fun x => if x = nxt then hm cur + 1 else hm x) cur := by
        show 0 ≤ (if cur = nxt then hm cur + 1 else hm cur)
        rw [if_neg hcur_ne]
        exact hcur
      have hq' : ∀ x ∈ q ++ [nxt],
          0 ≤ (fun x => if x = nxt then hm cur + 1 else hm x) x := by
        intro x hx
        rcases List.mem_append.mp hx with h1 | h1
        · have := hq x h1
          rw [hmono x this]
          exact this
        · rw [List.mem_singleton.mp h1]
          show 0 ≤ (if nxt = nxt then hm cur + 1 else hm nxt)
          rw [if_pos rfl]
          omega
      obtain ⟨rinv, rmono, rq⟩ :=
        ih (fun x hx => hl x (List.mem_cons_of_mem _ hx)) _ _ inv' hcur' hq'
      refine ⟨rinv, ?_, rq⟩
      intro x hx
      have hx_ne : x ≠ nxt := by
        intro h
        rw [h, hn] at hx
        exact absurd hx (by norm_num)
      rw [rmono x (by rw [if_neg hx_ne]; exact hx), if_neg hx_ne]
    · have hp1 : bfsVisit cur (hm, q) nxt = (hm, q) := by
        simp [bfsVisit, hn]
      rw [hp1]
      exact ih (fun x hx => hl x (List.mem_cons_of_mem _ hx)) hm q inv hcur hq

theorem bfsLoop_inv {adj : String → List String}
    (hsymm : ∀ a b : String, a ∈ adj b → b ∈ adj a) {core : String} :
    ∀ (fuel : Nat) (hm : String → Int) (q : List String),
      BfsInv adj core hm → (∀ x ∈ q, 0 ≤ hm x) →
      BfsInv adj core (bfsLoop adj fuel hm q) := by
  intro fuel
  induction fuel with
  | zero => intro hm q inv _; exact inv
  | succ n ih =>
    intro hm q inv hq
    cases q with
    | nil => exact inv
    | cons cur rest =>
      unfold bfsLoop bfsStep
      obtain ⟨rinv, _, rq⟩ := bfsFold_inv hsymm (adj cur) (fun _ hx => hx)
        hm rest inv (hq cur (List.mem_cons_self _ _))
        (fun x hx => hq x (List.mem_cons_of_mem _ hx))
      exact ih _ _ rinv rq

theorem bfsHopMap_inv (edges : List GraphEdge) (core : String) (fuel : Nat) :
    BfsInv (adjOf edges) core (bfsHopMap edges core fuel) := by
  apply bfsLoop_inv (fun a b => adjOf_symm)
  · refine ⟨?_, ?_, ?_, ?_, ?_⟩
    · intro x
      by_cases hx : x = core
      · rw [if_pos hx]; norm_num
      · rw [if_neg hx]
    · rw [if_pos rfl]
    · intro x hx
      by_cases hxe : x = core
      · exact hxe
      · rw [if_neg hxe] at hx
        cases hx
    · intro x hx
      by_cases hxe : x = core
      · rw [if_pos hxe] at hx
        omega
      · rw [if_neg hxe] at hx
        omega
    · intro x hx
      by_cases hxe : x = core
      · rw [hxe]
      · rw [if_neg hxe] at hx
        omega
  · intro x hx
    rw [List.mem_singleton.mp hx, if_pos rfl]

theorem graphEdgesInner_endpoints {sqrt : ℚ → ℚ} {m : List (String × List ℚ)}
    {threshold : ℚ} {idi : String} :
    ∀ (l : List String) (es : List GraphEdge),
      graphEdgesInner sqrt m threshold idi l = .ok es →
      ∀ e ∈ es, e.source = idi ∧ e.target ∈ l := by
  intro l
  induction l with
  | nil =>
    intro es h e he
    cases h
    cases he
  | cons idj tl ih =>
    intro es h e he
    unfold graphEdgesInner at h
    cases hvi : dictLookup m idi with
    | error err =>
      rw [hvi] at h
      exact absurd h (by simp [bind, Except.bind])
    | ok vi =>
      rw [hvi] at h
      simp only [bind, Except.bind] at h
      cases hvj : dictLookup m idj with
      | error err =>
        rw [hvj] at h
        exact absurd h (by simp)
      | ok vj =>
        rw [hvj] at h
        simp only [] at h
        cases hw : cosine_similarity sqrt vi vj with
        | error err =>
          rw [hw] at h
          exact absurd h (by simp)
        | ok w =>
          rw [hw] at h
          simp only [] at h
          cases htl : graphEdgesInner sqrt m threshold idi tl with
          | error err =>
            rw [htl] at h
            exact absurd h (by simp)
          | ok tail =>
            rw [htl] at h
            simp only [] at h
            by_cases hth : threshold ≤ w
            · rw [if_pos hth] at h
              cases h
              rcases List.mem_cons.mp he with h1 | h1
              · rw [h1]
                exact ⟨rfl, List.mem_cons_self _ _⟩
              · obtain ⟨hs, ht⟩ := ih _ htl e h1
                exact ⟨hs, List.mem_cons_of_mem _ ht⟩
            · rw [if_neg hth] at h
              cases h
              obtain ⟨hs, ht⟩ := ih _ htl e he
              exact ⟨hs, List.mem_cons_of_mem _ ht⟩

theorem graphEdgesOuter_endpoints {sqrt : ℚ → ℚ} {m : List (String × List ℚ)}
    {threshold : ℚ} :
    ∀ (l : List String) (es : List GraphEdge),
      graphEdgesOuter sqrt m threshold l = .ok es →
      ∀ e ∈ es, e.source ∈ l ∧ e.target ∈ l := by
  intro l
  induction l with
  | nil =>
    intro es h e he
    cases h
    cases he
  | cons idi tl ih =>
    intro es h e he
    unfold graphEdgesOuter at h
    cases hin : graphEdgesInner sqrt m threshold idi tl with
    | error err =>
      rw [hin] at h
      exact absurd h (by simp [bind, Except.bind])
    | ok here =>
      rw [hin] at h
      simp only [bind, Except.bind] at h
      cases hout : graphEdgesOuter sqrt m threshold tl with
      | error err =>
        rw [hout] at h
        exact absurd h (by simp)
      | ok tail =>
        rw [hout] at h
        simp only [] at h
        cases h
        rcases List.mem_append.mp he with h1 | h1
        · obtain ⟨hs, ht⟩ := graphEdgesInner_endpoints tl here hin e h1
          exact ⟨hs ▸ List.mem_cons_self _ _, List.mem_cons_of_mem _ ht⟩
        · obtain ⟨hs, ht⟩ := ih tail hout e h1
          exact ⟨List.mem_cons_of_mem _ hs, List.mem_cons_of_mem _ ht⟩

theorem filterNodes_mem {hm : String → Int} {mh : Int} {nodes : List GraphNode}
    {n' : GraphNode} :
    n' ∈ filterNodes hm mh nodes ↔
      ∃ n ∈ nodes, ¬(hm n.id = -1) ∧ hm n.id ≤ mh ∧
        n' = { n with hop := hm n.id } := by
  unfold filterNodes
  rw [List.mem_filterMap]
  constructor
  · rintro ⟨n, hn, hsome⟩
    by_cases h1 : hm n.id = -1
    · rw [if_pos h1] at hsome
      cases hsome
    · rw [if_neg h1] at hsome
      by_cases h2 : hm n.id ≤ mh
      · rw [if_pos h2] at hsome
        exact ⟨n, hn, h1, h2, (Option.some_inj.mp hsome).symm⟩
      · rw [if_neg h2] at hsome
        cases hsome
  · rintro ⟨n, hn, h1, h2, hn'⟩
    exact ⟨n, hn, by rw [if_neg h1, if_pos h2, hn']⟩

theorem filterEdges_mem {es : List GraphEdge} {ids : List String}
    {e : GraphEdge} :
    e ∈ filterEdges es ids ↔ e ∈ es ∧ e.source ∈ ids ∧ e.target ∈ ids := by
  unfold filterEdges
  rw [List.mem_filter]
  simp

theorem bfs_reach_kept {edges0 : List GraphEdge} {core : String} {fuel : Nat}
    {mh : Int} {nodes0 : List GraphNode}
    (hends : ∀ e ∈ edges0, e.source ∈ nodes0.map (fun n => n.id) ∧
      e.target ∈ nodes0.map (fun n => n.id)) :
    ∀ (h : Nat) (x : String),
      bfsHopMap edges0 core fuel x = (h : Int) → (h : Int) ≤ mh →
      (∃ n ∈ nodes0, n.id = x) →
      Relation.ReflTransGen
        (edgeTouch (filterEdges edges0
          ((filterNodes (bfsHopMap edges0 core fuel) mh nodes0).map
            (fun n => n.id))))
        core x := by
  have inv := bfsHopMap_inv edges0 core fuel
  intro h
  induction h with
  | zero =>
    intro x hx _ _
    have : x = core := inv.zero_core x (by exact_mod_cast hx)
    rw [this]
  | succ k ih =>
    intro x hx hle hxnode
    have h1 : 1 ≤ bfsHopMap edges0 core fuel x := by
      rw [hx]
      omega
    obtain ⟨y, hyadj, hyv⟩ := inv.parent x h1
    have hyk : bfsHopMap edges0 core fuel y = (k : Int) := by
      rw [hyv, hx]
      push_cast
      ring
    obtain ⟨e, he, hdir⟩ := adjOf_mem.mp hyadj
    have hynode : ∃ n ∈ nodes0, n.id = y := by
      obtain ⟨hs, ht⟩ := hends e he
      rcases hdir with ⟨h1', h2'⟩ | ⟨h1', h2'⟩
      · rw [h2'] at ht
        obtain ⟨n, hn, hnid⟩ := List.mem_map.mp ht
        exact ⟨n, hn, hnid⟩
      · rw [h1'] at hs
        obtain ⟨n, hn, hnid⟩ := List.mem_map.mp hs
        exact ⟨n, hn, hnid⟩
    have hkle : (k : Int) ≤ mh := by
      have : (k : Int) ≤ (k : Int) + 1 := by omega
      calc (k : Int) ≤ ((k : Nat) + 1 : Nat) := by push_cast; omega
        _ ≤ mh := hle
    have hreach_y := ih y hyk hkle hynode
    have hidset : ∀ z : String, (∃ n ∈ nodes0, n.id = z) →
        bfsHopMap edges0 core fuel z ≠ -1 →
        bfsHopMap edges0 core fuel z ≤ mh →
        z ∈ (filterNodes (bfsHopMap edges0 core fuel) mh nodes0).map
          (fun n => n.id) := by
      rintro z ⟨n, hn, hnid⟩ hne hzle
      refine List.mem_map.mpr
        ⟨{ n with hop := bfsHopMap edges0 core fuel n.id },
         filterNodes_mem.mpr ⟨n, hn, by rw [hnid]; exact hne,
           by rw [hnid]; exact hzle, rfl⟩, hnid⟩
    have hxset := hidset x hxnode (by rw [hx]; omega) (by rw [hx]; exact hle)
    have hyset := hidset y hynode (by rw [hyk]; omega) (by rw [hyk]; exact hkle)
    have hekept : e ∈ filterEdges edges0
        ((filterNodes (bfsHopMap edges0 core fuel) mh nodes0).map
          (fun n => n.id)) := by
      refine filterEdges_mem.mpr ⟨he, ?_, ?_⟩
      · rcases hdir with ⟨h1', _⟩ | ⟨h1', _⟩
        · rw [h1']; exact hxset
        · rw [h1']; exact hyset
      · rcases hdir with ⟨_, h2'⟩ | ⟨_, h2'⟩
        · rw [h2']; exact hyset
        · rw [h2']; exact hxset
    refine Relation.ReflTransGen.tail hreach_y ⟨e, hekept, ?_⟩
    rcases hdir with ⟨h1', h2'⟩ | ⟨h1', h2'⟩
    · exact Or.inr ⟨h1', h2'⟩
    · exact Or.inl ⟨h1', h2'⟩

/-- C3: whenever the BFS builder succeeds, (1) the core is the argmax of
worldview-similarity with ties broken by first occurrence in input
order; (2) the core id is assigned hop 0 (and every returned node
carrying the core id has hop 0); (3) every returned node with hop h > 0
has, via a returned edge, a returned neighbour with hop h-1; (4) every
returned node has hop at most `max_hops` and is reachable from the core
through returned edges — equivalently, nodes unreachable from the core
or beyond `max_hops` are absent; and (5) an edge is returned iff it was
built and both endpoints survive the node filter. -/
theorem build_graph_bfs_spec (embed : String → List ℚ) (sqrt : ℚ → ℚ)
    (worldview : String) (k : Nat) (max_hops : Int) (threshold : ℚ)
    (candidates : List Candidate) (ns : List GraphNode)
    (es : List GraphEdge) (cid : String)
    (hok : build_graph embed sqrt worldview k max_hops threshold candidates =
      .ok (ns, es, cid)) :
    ∃ n0 rest edges0,
      graphNodesLoop sqrt (embed worldview) (id_to_vec embed candidates)
        candidates = .ok (n0 :: rest) ∧
      graphEdgesOuter sqrt (id_to_vec embed candidates) threshold
        ((n0 :: rest).map (fun n => n.id)) = .ok edges0 ∧
      cid = (pickCore n0 rest).id ∧
      ns = filterNodes (bfsHopMap edges0 cid ((n0 :: rest).length + 1))
        max_hops (n0 :: rest) ∧
      es = filterEdges edges0 (ns.map (fun n => n.id)) ∧
      (∃ l1 l2, n0 :: rest = l1 ++ pickCore n0 rest :: l2 ∧
        (∀ m ∈ l1, m.similarity < (pickCore n0 rest).similarity) ∧
        (∀ m ∈ n0 :: rest, m.similarity ≤ (pickCore n0 rest).similarity)) ∧
      (bfsHopMap edges0 cid ((n0 :: rest).length + 1) cid = 0 ∧
        ∀ n ∈ ns, n.id = cid → n.hop = 0) ∧
      (∀ n ∈ ns, 0 < n.hop → ∃ m ∈ ns, ∃ e ∈ es,
        ((e.source = n.id ∧ e.target = m.id) ∨
         (e.source = m.id ∧ e.target = n.id)) ∧
        m.hop = n.hop - 1) ∧
      (∀ n ∈ ns, n.hop ≤ max_hops ∧
        Relation.ReflTransGen (edgeTouch es) cid n.id) ∧
      (∀ e : GraphEdge, e ∈ es ↔ (e ∈ edges0 ∧
        e.source ∈ ns.map (fun n => n.id) ∧
        e.target ∈ ns.map (fun n => n.id))) := by
  simp only [build_graph] at hok
  cases hloop : graphNodesLoop sqrt (embed worldview)
      (id_to_vec embed candidates) candidates with
  | error err =>
    rw [hloop] at hok
    exact absurd hok (by simp [bind, Except.bind])
  | ok nds =>
    rw [hloop] at hok
    simp only [bind, Except.bind] at hok
    cases nds with
    | nil => exact absurd hok (by simp)
    | cons n0 rest =>
      simp only [] at hok
      cases houter : graphEdgesOuter sqrt (id_to_vec embed candidates)
          threshold ((n0 :: rest).map (fun n => n.id)) with
      | error err =>
        rw [houter] at hok
        exact absurd hok (by simp)
      | ok edges0 =>
        rw [houter] at hok
        simp only [Except.ok.injEq, Prod.mk.injEq] at hok
        obtain ⟨hns, hes, hcid⟩ := hok
        subst hcid
        have inv := bfsHopMap_inv edges0 (pickCore n0 rest).id
          ((n0 :: rest).length + 1)
        have hends := graphEdgesOuter_endpoints _ edges0 houter
        refine ⟨n0, rest, edges0, rfl, houter, rfl, hns.symm, ?_, ?_,
          ⟨inv.core_zero, ?_⟩, ?_, ?_, ?_⟩
        · rw [← hns]
          exact hes.symm
        · exact pickCore_spec rest n0
        · intro n hn hid
          rw [← hns] at hn
          obtain ⟨n1, _, _, _, hn1⟩ := filterNodes_mem.mp hn
          have : n.hop = bfsHopMap edges0 (pickCore n0 rest).id
              ((n0 :: rest).length + 1) n.id := by
            rw [hn1]
          rw [this, hid, inv.core_zero]
        · intro n hn hpos
          rw [← hns] at hn
          obtain ⟨n1, hn1mem, hne1, hle1, hn1⟩ := filterNodes_mem.mp hn
          have hnid : n.id = n1.id := by rw [hn1]
          have hnhop : n.hop = bfsHopMap edges0 (pickCore n0 rest).id
              ((n0 :: rest).length + 1) n1.id := by rw [hn1]
          have h1 : 1 ≤ bfsHopMap edges0 (pickCore n0 rest).id
              ((n0 :: rest).length + 1) n1.id := by
            rw [← hnhop]
            omega
          obtain ⟨y, hyadj, hyv⟩ := inv.parent n1.id h1
          obtain ⟨e, he, hdir⟩ := adjOf_mem.mp hyadj
          have hynode : ∃ m1 ∈ n0 :: rest, m1.id = y := by
            obtain ⟨hs, ht⟩ := hends e he
            rcases hdir with ⟨h1', h2'⟩ | ⟨h1', h2'⟩
            · rw [h2'] at ht
              obtain ⟨m1, hm1, hmid⟩ := List.mem_map.mp ht
              exact ⟨m1, hm1, hmid⟩
            · rw [h1'] at hs
              obtain ⟨m1, hm1, hmid⟩ := List.mem_map.mp hs
              exact ⟨m1, hm1, hmid⟩
          obtain ⟨m1, hm1mem, hm1id⟩ := hynode
          have hyval : bfsHopMap edges0 (pickCore n0 rest).id
              ((n0 :: rest).length + 1) m1.id =
              n.hop - 1 := by
            rw [hm1id, hyv, ← hnhop]
          have hmkept0 : ({ m1 with hop := bfsHopMap edges0 (pickCore n0 rest).id ((n0 :: rest).length + 1) m1.id } : GraphNode) ∈ filterNodes (bfsHopMap edges0 (pickCore n0 rest).id ((n0 :: rest).length + 1)) max_hops (n0 :: rest) := by
            refine filterNodes_mem.mpr ⟨m1, hm1mem, ?_, ?_, rfl⟩
            · rw [hyval]
              omega
            · rw [hyval]
              omega
          have hmkept : ({ m1 with hop := bfsHopMap edges0 (pickCore n0 rest).id ((n0 :: rest).length + 1) m1.id } : GraphNode) ∈ ns := by
            rw [← hns]
            exact hmkept0
          refine ⟨_, hmkept, e, ?_, ?_, hyval⟩
          · rw [← hes]
            refine filterEdges_mem.mpr ⟨he, ?_, ?_⟩
            · rcases hdir with ⟨h1', _⟩ | ⟨h1', _⟩
              · rw [h1', ← hnid]
                exact List.mem_map.mpr ⟨n, hn, rfl⟩
              · rw [h1', ← hm1id]
                exact List.mem_map.mpr ⟨_, hmkept0, rfl⟩
            · rcases hdir with ⟨_, h2'⟩ | ⟨_, h2'⟩
              · rw [h2', ← hm1id]
                exact List.mem_map.mpr ⟨_, hmkept0, rfl⟩
              · rw [h2', ← hnid]
                exact List.mem_map.mpr ⟨n, hn, rfl⟩
          · rcases hdir with ⟨h1', h2'⟩ | ⟨h1', h2'⟩
            · refine Or.inl ⟨by rw [h1', hnid], ?_⟩
              rw [h2']
              exact hm1id.symm
            · refine Or.inr ⟨?_, by rw [h2', hnid]⟩
              rw [h1']
              exact hm1id.symm
        · intro n hn
          rw [← hns] at hn
          obtain ⟨n1, hn1mem, hne1, hle1, hn1⟩ := filterNodes_mem.mp hn
          have hnhop : n.hop = bfsHopMap edges0 (pickCore n0 rest).id
              ((n0 :: rest).length + 1) n1.id := by rw [hn1]
          have hge : 0 ≤ bfsHopMap edges0 (pickCore n0 rest).id
              ((n0 :: rest).length + 1) n1.id := by
            have := inv.lb n1.id
            omega
          constructor
          · rw [hnhop]
            exact hle1
          · have hnid : n.id = n1.id := by rw [hn1]
            rw [hnid, ← hes]
            exact bfs_reach_kept hends
              (bfsHopMap edges0 (pickCore n0 rest).id
                ((n0 :: rest).length + 1) n1.id).toNat n1.id
              (by rw [Int.toNat_of_nonneg hge])
              (by rw [Int.toNat_of_nonneg hge]; exact hle1)
              ⟨n1, hn1mem, rfl⟩
        · intro e
          rw [← hes, ← hns]
          exact filterEdges_mem

/-- C3 witness: the BFS theorem applied to a concrete two-candidate
build (both similar to the worldview and to each other), discharging the
success hypothesis: every returned node is within the hop bound and
reachable from the core through returned edges. -/
theorem build_graph_bfs_spec_witness :
    (1 : Int) ≤ 3 ∧
    Relation.ReflTransGen
      (edgeTouch [{ source := "c1", target := "c2", weight := 1 }])
      "c1" "c2" := by
  obtain ⟨_, _, _, _, _, _, _, _, _, _, _, hreach, _⟩ :=
    build_graph_bfs_spec (fun _ => [1]) (fun q => q) "W" 5 3 1
      [{ id := "c1", type := "market", title := "T1", description := none,
         url := none },
       { id := "c2", type := "market", title := "T2", description := none,
         url := none }]
      [{ id := "c1", label := "T1", url := none, type := "market",
         similarity := 1, hop := 0 },
       { id := "c2", label := "T2", url := none, type := "market",
         similarity := 1, hop := 1 }]
      [{ source := "c1", target := "c2", weight := 1 }] "c1"
      (by with_unfolding_all rfl)
  have h := hreach
    { id := "c2", label := "T2", url := none, type := "market",
      similarity := 1, hop := 1 } (by simp)
  exact ⟨h.1, h.2⟩

end KalshiWorldview
